import Mathlib

/-!
Verification of the BeeBreeding cross-mod reconciliation and hierarchy
pipeline.  Each definition is a shallow embedding of one JavaScript function
of the repository; the theorems check the specification's claims against
those embeddings.

Conventions used throughout the embedding:
* JavaScript objects used as string-keyed maps become association lists
  `List (String × α)`; lookup returns the first binding, and JS object
  insertion order is the list order.
* JS `Map` insertion/`Set` insertion are modelled the same way.
* `undefined`/missing fields become `Option.none`; the JS truthiness test
  `if (x)` on a field becomes `Option.isSome` (for string fields the empty
  string is also falsy, which is modelled where the code can meet it).
* `localeCompare` and the default `Array.sort` string order are modelled by
  the standard order on `String`.
* Machine numbers that stay small non-negative integers become `Nat`;
  the generation scan, which uses the sentinel `-1`, uses `Int`.
-/

namespace BeeBreeding

/-- Lookup in an association list: the JS `obj[key]` read. -/
def lookupL {α : Type} (m : List (String × α)) (k : String) : Option α :=
  (m.find? (fun kv => kv.1 == k)).map (·.2)

/-- The JS `key in obj` / `map.has(key)` test. -/
def hasKeyL {α : Type} (m : List (String × α)) (k : String) : Bool :=
  m.any (fun kv => kv.1 == k)

/-! ### Character-list string primitives

The JS string operations are modelled over the character list of the
string (`String.data`), recombined with `String.mk`/`++`, so that every
definition evaluates inside the kernel. -/

/-- `str.toLowerCase()`. -/
def jsLower (s : String) : String := String.mk (s.data.map Char.toLower)

/-- `str.toUpperCase()`. -/
def jsUpper (s : String) : String := String.mk (s.data.map Char.toUpper)

/-- JS falsiness of a string (`""` is falsy). -/
def jsIsEmpty (s : String) : Bool := s.data.isEmpty

/-- `str.includes(c)` for a one-character needle. -/
def jsContainsChar (s : String) (c : Char) : Bool := s.data.contains c

/-- `str.split(sep)` for a single-character separator.  The result list is
never empty; the `[]` arm of the inner match is unreachable. -/
def splitCharList (sep : Char) : List Char → List (List Char)
  | [] => [[]]
  | c :: rest =>
    match splitCharList sep rest with
    | [] => [[]]
    | g :: gs => if c = sep then [] :: g :: gs else (c :: g) :: gs

def jsSplit (s : String) (sep : Char) : List String :=
  (splitCharList sep s.data).map String.mk

/-- `str.replace(/c/g, "")`: remove every occurrence of the character. -/
def jsRemoveChar (s : String) (c : Char) : String :=
  String.mk (s.data.filter (fun x => !(x == c)))

/-- `str.charAt(0)`. -/
def jsHead (s : String) : String := String.mk (s.data.take 1)

/-- `str.slice(1)`. -/
def jsTail (s : String) : String := String.mk (s.data.drop 1)

/-- Code-unit lexicographic comparison (JS default `sort()` order and
`localeCompare`, modelled as code-point order). -/
def strLtAux : List Char → List Char → Bool
  | [], [] => false
  | [], _ :: _ => true
  | _ :: _, [] => false
  | a :: as, b :: bs => if a = b then strLtAux as bs else decide (a < b)

def jsLt (a b : String) : Bool := strLtAux a.data b.data

def jsLe (a b : String) : Bool := !(jsLt b a)

/-- Stable insertion: the element goes before the first list member it
compares `le` to, after every earlier-equal member. -/
def insertSorted {α : Type} (le : α → α → Bool) (x : α) : List α → List α
  | [] => [x]
  | y :: ys => if le x y then x :: y :: ys else y :: insertSorted le x ys

/-- Comparator-based stable sort (JS `Array.prototype.sort` is stable; a
stable sort is determined by the comparator, so the algorithm choice is
immaterial — insertion sort keeps every definition kernel-evaluable). -/
def stableSort {α : Type} (le : α → α → Bool) (l : List α) : List α :=
  l.foldr (insertSorted le) []

/-! ### `buildHierarchy` (src/src/data/beeProcessor.js)

One entry of the `beeData` map consumed by `buildHierarchy`.
`parentCombinations = none` / `children = none` / `name = none` /
`mod = none` model records whose corresponding JS field is missing. -/

structure BeeInfo where
  name : Option String := none
  mod : Option String := none
  parentCombinations : Option (List (List String)) := none
  children : Option (List String) := none
deriving Repr, DecidableEq

/-- The `beeData` argument: keys in `Object.keys` order. -/
abbrev BeeData := List (String × BeeInfo)

/-- The generation map.  In the source, `visitedBees` always coincides with
the domain of `generationMap` (both are extended together and nowhere
else), so a single map models the pair.  `Map.set` is only ever called on a
key that is absent, so insertion is modelled by consing. -/
abbrev GenMap := List (String × Nat)

def gmGet? (g : GenMap) (k : String) : Option Nat :=
  (g.find? (fun kv => kv.1 == k)).map (·.2)

/-- The inner `for (const parent of parents)` scan of one combination:
starts from accumulator `-1`, breaks with `valid = false` at the first
parent that has no generation yet. -/
def combinationScan (g : GenMap) : List String → Int → Int × Bool
  | [], acc => (acc, true)
  | p :: ps, acc =>
    match gmGet? g p with
    | none => (acc, false)
    | some gp => combinationScan g ps (max acc (gp : Int))

/-- The `for (const parents of parentCombinations)` loop: accumulates
`(maxParentGeneration, allParentsHaveGeneration)` starting from
`(-1, true)`. -/
def combosScan (g : GenMap) (combos : List (List String)) : Int × Bool :=
  combos.foldl
    (fun acc parents =>
      match combinationScan g parents (-1) with
      | (v, true) => (max acc.1 v, acc.2)
      | (_, false) => (acc.1, false))
    (-1, true)

/-- The body of the relaxation pass for one bee: skip if already visited,
skip records without `parentCombinations`, otherwise assign
`maxParentGeneration + 1` exactly when `maxParentGeneration >= 0 &&
allParentsHaveGeneration`.  Returns the updated map and the `changed`
contribution. -/
def relaxBee (g : GenMap) (bee : String) (info : BeeInfo) : GenMap × Bool :=
  if (gmGet? g bee).isSome then (g, false)
  else
    match info.parentCombinations with
    | none => (g, false)
    | some combos =>
      if combos.length > 0 then
        match combosScan g combos with
        | (m, allv) =>
          if 0 ≤ m ∧ allv = true then ((bee, (m + 1).toNat) :: g, true)
          else (g, false)
      else (g, false)

/-- One full `allBees.forEach` pass; assignments made earlier in the pass
are visible to later bees of the same pass, as in the source. -/
def relaxPass (bd : BeeData) (g : GenMap) : GenMap × Bool :=
  bd.foldl
    (fun acc kv =>
      let r := relaxBee acc.1 kv.1 kv.2
      (r.1, acc.2 || r.2))
    (g, false)

/-- A record is a base bee when `parentCombinations` is missing (treated as
base in the source after a warning) or empty. -/
def isBaseBee (info : BeeInfo) : Bool :=
  match info.parentCombinations with
  | none => true
  | some l => l.isEmpty

/-- `baseBees.forEach((bee) => generationMap.set(bee, 0))`. -/
def initGenMap (bd : BeeData) : GenMap :=
  (bd.filter (fun kv => isBaseBee kv.2)).foldl (fun g kv => (kv.1, 0) :: g) []

/-- `while (changed && iterations < 20)` with `changed` initially true:
runs a pass, recurses while the pass reported a change and fuel remains.
Returns the final map together with the number of executed passes (the
source's final `iterations` value). -/
def relaxLoop (bd : BeeData) : Nat → GenMap → GenMap × Nat
  | 0, g => (g, 0)
  | fuel + 1, g =>
    let p := relaxPass bd g
    if p.2 then
      let r := relaxLoop bd fuel p.1
      (r.1, r.2 + 1)
    else (p.1, 1)

def finalGenMap (bd : BeeData) : GenMap :=
  (relaxLoop bd 20 (initGenMap bd)).1

def iterationsUsed (bd : BeeData) : Nat :=
  (relaxLoop bd 20 (initGenMap bd)).2

/-- JS `a || b` for an optional string field (`undefined` and `""` are
falsy). -/
def jsOr (a : Option String) (b : String) : String :=
  match a with
  | some s => if jsIsEmpty s then b else s
  | none => b

/-- `bee.split(":")[1] || bee`. -/
def nameFallback (bee : String) : String :=
  jsOr ((jsSplit bee ':').get? 1) bee

/-- The node produced for one bee in the second pass. -/
structure HNode where
  id : String
  name : String
  generation : Nat
  children : List String
  parentCombinations : List (List String)
  parents : List String
  mod : String
deriving Repr, DecidableEq

/-- Flattening of all parent combinations through a `Set` (first-occurrence
order, deduplicated). -/
def flattenParents (combos : List (List String)) : List String :=
  combos.foldl
    (fun acc c => c.foldl (fun a p => if p ∈ a then a else a ++ [p]) acc) []

def mkNode (g : GenMap) (bee : String) (info : BeeInfo) : HNode :=
  { id := bee
    name := jsOr info.name (nameFallback bee)
    generation := (gmGet? g bee).getD 0
    children := info.children.getD []
    parentCombinations := info.parentCombinations.getD []
    parents := flattenParents (info.parentCombinations.getD [])
    mod := jsOr info.mod "Unknown" }

/-- Links contributed by one child node: one `parent → child` edge per
parent of each combination, kept only when the parent id is a key of the
node map (i.e. of `beeData`). -/
def nodeLinks (bd : BeeData) (node : HNode) : List (String × String) :=
  node.parentCombinations.flatMap
    (fun pair => (pair.filter (hasKeyL bd)).map (fun p => (p, node.id)))

structure Hierarchy where
  nodes : List HNode
  links : List (String × String)
deriving Repr, DecidableEq

def buildHierarchy (bd : BeeData) : Hierarchy :=
  let g := finalGenMap bd
  let nodes := bd.map (fun kv => mkNode g kv.1 kv.2)
  { nodes := nodes
    links := nodes.flatMap (nodeLinks bd) }

/-- Generation of the node with a given id in the built hierarchy. -/
def generationOf (h : Hierarchy) (id : String) : Option Nat :=
  (h.nodes.find? (fun n => n.id == id)).map (·.generation)

/-- A combination is "ready" when every parent in it already has an
assigned generation (the specification's notion). -/
def comboReady (g : GenMap) (c : List String) : Bool :=
  c.all (fun p => (gmGet? g p).isSome)

/-- Maximum assigned parent generation of one combination, starting from
the sentinel `-1`; agrees with `combinationScan` on ready combinations. -/
def comboMaxSpec (g : GenMap) (c : List String) : Int :=
  c.foldl (fun a p => max a (((gmGet? g p).getD 0 : Nat) : Int)) (-1)

/-- Maximum of `comboMaxSpec` over all combinations, starting from `-1`. -/
def allCombosMax (g : GenMap) (combos : List (List String)) : Int :=
  combos.foldl (fun a c => max a (comboMaxSpec g c)) (-1)

/-- Concrete input for C1: bee `x` has one ready combination (`[a]`) and
one combination with a dangling parent (`[b]`). -/
def bdC1 : BeeData :=
  [("a", { parentCombinations := some [] }),
   ("x", { parentCombinations := some [["a"], ["b"]] })]

/-- Concrete input with a two-node parent cycle: neither bee is ever
assigned by the relaxation. -/
def bdCyc : BeeData :=
  [("a", { parentCombinations := some [["b"]] }),
   ("b", { parentCombinations := some [["a"]] })]

/-- The literal scenario of the specification: two base species and one
mutation `forest + meadows -> common`. -/
def bdScen : BeeData :=
  [("forestry.forest", { parentCombinations := some [] }),
   ("forestry.meadows", { parentCombinations := some [] }),
   ("forestry.common",
    { parentCombinations := some [["forestry.forest", "forestry.meadows"]] })]

/-- Generation-edge invariant carried through the relaxation: every
assigned bee with a parent combination list strictly dominates every
assigned parent appearing in it, and all those parents are assigned. -/
def GenInv (bd : BeeData) (g : GenMap) : Prop :=
  ∀ bee info, (bee, info) ∈ bd → ∀ gc, gmGet? g bee = some gc →
    ∀ c ∈ info.parentCombinations.getD [], ∀ p ∈ c,
      ∃ gp, gmGet? g p = some gp ∧ gp < gc

/-! ### Output builder (scripts/output_builder.js, src/unnamed/part_000) -/

/-- A merged bee record.  Only the fields read by the verified claims are
carried: `mod` and `name` (read when emitting keys and mutation ids) and
`binomial` (distinguishes the records of the collision scenario). -/
structure OutBee where
  mod : String
  name : String
  binomial : Option String := none
deriving Repr, DecidableEq

/-- JS `obj[key] = value`: replace in place when the key exists, append
otherwise. -/
def setKey {α : Type} (m : List (String × α)) (k : String) (v : α) :
    List (String × α) :=
  if hasKeyL m k then m.map (fun kv => if kv.1 == k then (k, v) else kv)
  else m ++ [(k, v)]

/-- `Object.assign(target, src)`. -/
def objAssign {α : Type} (target src : List (String × α)) :
    List (String × α) :=
  src.foldl (fun t kv => setKey t kv.1 kv.2) target

/-- The bee-merging step of `buildOutput`:
`intermediateData.forEach((data) => Object.assign(merged.bees, data.bees))`.
The step has no diagnostics channel: its only output is the merged map. -/
def mergeBees {α : Type} (datasets : List (List (String × α))) :
    List (String × α) :=
  datasets.foldl (fun acc d => objAssign acc d) []

/-- The fixed mod-token table of `findBee`
(`modPrefixMap[mod.toLowerCase()] || mod.toLowerCase()`). -/
def modPrefixOf (modTok : String) : String :=
  match jsLower modTok with
  | "forestry" => "forestry"
  | "extrabees" => "extrabees"
  | "magicbees" => "magicbees"
  | "careerbees" => "careerbees"
  | "meatballcraft" => "gendustry"
  | other => other

/-- `part.charAt(0).toUpperCase() + part.slice(1).toLowerCase()`. -/
def capitalizeWord (w : String) : String :=
  jsUpper (jsHead w) ++ jsLower (jsTail w)

/-- `name.split("_").map(capitalize).join(" ")`. -/
def nameWithSpaces (nm : String) : String :=
  String.intercalate " " ((jsSplit nm '_').map capitalizeWord)

/-- MagicBees-only stripped form: underscores removed, first character
kept as-is, remainder lowercased. -/
def strippedMagicName (nm : String) : String :=
  jsHead (jsRemoveChar nm '_') ++ jsLower (jsTail (jsRemoveChar nm '_'))

/-- First pattern that is a key of the record set wins. -/
def findFirstKey {α : Type} (bees : List (String × α)) :
    List String → Option α
  | [] => none
  | p :: rest =>
    match lookupL bees p with
    | some b => some b
    | none => findFirstKey bees rest

/-- The `findBee` resolver of `buildBreedingPairsJsonc`: exact id lookup
first; for a `Mod:Name` reference the three prefix patterns in order (plus,
for MagicBees names containing `_`, the stripped `species` pattern at the
end of that list); then, for names containing `_`, the two
space-and-capitalize patterns.  `none`/empty references are unresolved
(JS falsy guard). -/
def findBee (bees : List (String × OutBee)) (identifier : Option String) :
    Option OutBee :=
  match identifier with
  | none => none
  | some id =>
    if jsIsEmpty id then none
    else
      match lookupL bees id with
      | some b => some b
      | none =>
        if jsContainsChar id ':' then
          let parts := jsSplit id ':'
          let modTok := (parts.get? 0).getD ""
          let nm := (parts.get? 1).getD ""
          let pfx := modPrefixOf modTok
          let patterns :=
            [pfx ++ "." ++ jsLower nm,
             pfx ++ ".species" ++ nm,
             pfx ++ ".species." ++ jsLower nm]
          let patterns :=
            if jsLower modTok == "magicbees" && jsContainsChar nm '_' then
              patterns ++ [pfx ++ ".species" ++ strippedMagicName nm]
            else patterns
          match findFirstKey bees patterns with
          | some b => some b
          | none =>
            if jsContainsChar nm '_' then
              findFirstKey bees
                [pfx ++ "." ++ jsLower (nameWithSpaces nm),
                 pfx ++ ".species" ++ nameWithSpaces nm]
            else none
        else none

structure SourceLoc where
  file : String
  line : Nat
deriving Repr, DecidableEq

/-- Optional condition fields of a raw mutation record.  A field is
`some`/`true` exactly when the JS key is present (the code only ever
tests presence/truthiness and copies the value). -/
structure Conditions where
  temperature : Option String := none
  humidity : Option String := none
  biome : Option String := none
  dateRange : Option String := none
  timeOfDay : Option String := none
  requiredBlock : Option String := none
  moonPhase : Option String := none
  moonPhaseBonus : Option Int := none
  thaumcraftVis : Option Int := none
  requireExplosion : Bool := false
  requirePlayer : Option String := none
  dimension : Option String := none
  isSecret : Bool := false
deriving Repr, DecidableEq

/-- `Object.keys(mutation.conditions).length > 0` under the convention
that a key is present exactly when the field is `some`/`true`. -/
def Conditions.hasAny (c : Conditions) : Bool :=
  c.temperature.isSome || c.humidity.isSome || c.biome.isSome ||
  c.dateRange.isSome || c.timeOfDay.isSome || c.requiredBlock.isSome ||
  c.moonPhase.isSome || c.moonPhaseBonus.isSome || c.thaumcraftVis.isSome ||
  c.requireExplosion || c.requirePlayer.isSome || c.dimension.isSome ||
  c.isSecret

/-- The `requirements` object of an emitted child entry (each present
condition field copied; `isSecret` is emitted on the entry itself). -/
structure Requirements where
  temperature : Option String := none
  humidity : Option String := none
  biome : Option String := none
  dateRange : Option String := none
  timeOfDay : Option String := none
  block : Option String := none
  moonPhase : Option String := none
  moonPhaseBonus : Option Int := none
  thaumcraftVis : Option Int := none
  requireExplosion : Bool := false
  requirePlayer : Option String := none
  dimension : Option String := none
deriving Repr, DecidableEq

def buildRequirements (c : Conditions) : Requirements :=
  { temperature := c.temperature
    humidity := c.humidity
    biome := c.biome
    dateRange := c.dateRange
    timeOfDay := c.timeOfDay
    block := c.requiredBlock
    moonPhase := c.moonPhase
    moonPhaseBonus := c.moonPhaseBonus
    thaumcraftVis := c.thaumcraftVis
    requireExplosion := c.requireExplosion
    requirePlayer := c.requirePlayer
    dimension := c.dimension }

/-- A raw mutation record of the merged intermediate data. -/
structure Mutation where
  parent1 : Option String := none
  parent2 : Option String := none
  offspring : Option String := none
  chance : Int := 0
  conditions : Option Conditions := none
  source : Option SourceLoc := none
deriving Repr, DecidableEq

/-- The numeric value `num / den`.  JS computes the float `chance / 100`;
the division is carried as an unevaluated fraction with fixed denominator
100, so equality of probabilities coincides with equality of chances and
no claim inspects the quotient itself. -/
structure ProbFrac where
  num : Int
  den : Int
deriving Repr, DecidableEq

structure ChildEntry where
  species : String
  probability : ProbFrac
  requirements : Option Requirements := none
  isSecret : Bool := false
deriving Repr, DecidableEq

structure MutationGroup where
  parents : List String
  children : List ChildEntry
deriving Repr, DecidableEq

/-- Content of the skip warning: with a source location it lists each
missing role with its raw reference and the location; without one it
names only the offspring reference. -/
structure SkipDiag where
  offspringRef : Option String := none
  missing : List (String × Option String) := []
  location : Option SourceLoc := none
deriving Repr, DecidableEq

/-- Whether a reference string occurs anywhere in the warning content. -/
def diagMentions (d : SkipDiag) (r : String) : Bool :=
  (d.offspringRef == some r) || d.missing.any (fun x => x.2 == some r)

def mkSkipDiag (m : Mutation)
    (p1Missing p2Missing offMissing : Bool) : SkipDiag :=
  match m.source with
  | some loc =>
    { offspringRef := m.offspring
      missing :=
        (if p1Missing then [("parent1", m.parent1)] else []) ++
        (if p2Missing then [("parent2", m.parent2)] else []) ++
        (if offMissing then [("offspring", m.offspring)] else [])
      location := some loc }
  | none => { offspringRef := m.offspring }

/-- The child entry built for a resolved record: probability =
`chance / 100`; a `requirements` object exists exactly when the record
has a nonempty `conditions` object (possibly with no copied field, e.g.
when only `isSecret` is present). -/
def mkChildEntry (offspring : String) (m : Mutation) : ChildEntry :=
  match m.conditions with
  | some c =>
    if c.hasAny then
      { species := offspring
        probability := ⟨m.chance, 100⟩
        requirements := some (buildRequirements c)
        isSecret := c.isSecret }
    else
      { species := offspring, probability := ⟨m.chance, 100⟩ }
  | none => { species := offspring, probability := ⟨m.chance, 100⟩ }

/-- `[parent1, parent2].sort()`. -/
def sortedParents (p1 p2 : String) : List String :=
  if jsLe p1 p2 then [p1, p2] else [p2, p1]

structure AggState where
  groups : List (List String × MutationGroup) := []
  skipped : List SkipDiag := []
deriving Repr, DecidableEq

/-- `mutationGroups.get(parentKey).children.push(childEntry)`. -/
def pushChild (groups : List (List String × MutationGroup))
    (key : List String) (e : ChildEntry) :
    List (List String × MutationGroup) :=
  groups.map (fun kv =>
    if kv.1 == key then (kv.1, { kv.2 with children := kv.2.children ++ [e] })
    else kv)

/-- Create the group on first sight of the key, then push the entry. -/
def addToGroups (groups : List (List String × MutationGroup))
    (key : List String) (e : ChildEntry) :
    List (List String × MutationGroup) :=
  if groups.any (fun kv => kv.1 == key) then pushChild groups key e
  else pushChild (groups ++ [(key, { parents := key, children := [] })]) key e

/-- One iteration of `merged.mutations.forEach`: resolve the three
references; on any failure record the skip diagnostic and leave the
groups untouched, otherwise add the child entry under the sorted parent
key. -/
def processMutation (bees : List (String × OutBee)) (st : AggState)
    (m : Mutation) : AggState :=
  match findBee bees m.parent1, findBee bees m.parent2,
      findBee bees m.offspring with
  | some p1b, some p2b, some ob =>
    let parent1 := p1b.mod ++ ":" ++ p1b.name
    let parent2 := p2b.mod ++ ":" ++ p2b.name
    let offspring := ob.mod ++ ":" ++ ob.name
    let key := sortedParents parent1 parent2
    { st with groups := addToGroups st.groups key (mkChildEntry offspring m) }
  | r1, r2, r3 =>
    { st with
      skipped := st.skipped ++ [mkSkipDiag m r1.isNone r2.isNone r3.isNone] }

/-- Two-level comparator: primary key, then secondary key (the shape of
both sort callbacks: `localeCompare` on the first component, falling back
to the second). -/
def lexLE (x0 x1 y0 y1 : String) : Bool :=
  jsLt x0 y0 || ((x0 == y0) && jsLe x1 y1)

/-- Group comparator: first parent, then second parent. -/
def groupLE (a b : MutationGroup) : Bool :=
  lexLE ((a.parents.get? 0).getD "") ((a.parents.get? 1).getD "")
    ((b.parents.get? 0).getD "") ((b.parents.get? 1).getD "")

/-- Child comparator: offspring id. -/
def childLE (a b : ChildEntry) : Bool :=
  jsLe a.species b.species

/-- `buildBreedingPairsJsonc`: aggregate all mutations, sort the groups by
`(parents[0], parents[1])` and each group's children by species.  Returns
the output array together with the skip diagnostics. -/
def buildBreedingPairsJsonc (bees : List (String × OutBee))
    (mutations : List Mutation) : List MutationGroup × List SkipDiag :=
  let st := mutations.foldl (processMutation bees) {}
  let sortedGroups := stableSort groupLE (st.groups.map Prod.snd)
  (sortedGroups.map
    (fun gr => { gr with children := stableSort childLE gr.children }),
   st.skipped)

/-- Bee comparator of `buildBeesJsonc`: mod, then name. -/
def beeLE (a b : String × OutBee) : Bool :=
  lexLE a.2.mod a.2.name b.2.mod b.2.name

/-- `buildBeesJsonc`, projected to the emitted entry order: entries sorted
by `(mod, name)` and re-keyed `Mod:Name`.  (The constant filler fields of
the emitted objects are not modelled; no claim reads them.) -/
def buildBeesJsonc (bees : List (String × OutBee)) :
    List (String × OutBee) :=
  (stableSort beeLE bees).map (fun kv => (kv.2.mod ++ ":" ++ kv.2.name, kv.2))

/-- Sum of emitted child entries over all groups. -/
def totalChildren (groups : List (List String × MutationGroup)) : Nat :=
  (groups.map (fun kv => kv.2.children.length)).sum

/-- Two extractor outputs both declaring `forestry.speciesCommon` with
differing `binomial` fields (the specification's collision scenario). -/
def beeCommonA : OutBee :=
  { mod := "Forestry", name := "Common", binomial := some "Apis mellifera" }

def beeCommonB : OutBee :=
  { mod := "Forestry", name := "Common", binomial := some "Apis cerana" }

def collisionDatasets : List (List (String × OutBee)) :=
  [[("forestry.speciesCommon", beeCommonA)],
   [("forestry.speciesCommon", beeCommonB)]]

/-- Record set for the resolver scenarios. -/
def beesRocky : List (String × OutBee) :=
  [("extrabees.speciesRocky", { mod := "ExtraBees", name := "Rocky" })]

def beesMagic : List (String × OutBee) :=
  [("magicbees.speciesTeendearing", { mod := "MagicBees", name := "TE Endearing" })]

/-- Record set and mutations for the aggregation claims. -/
def beesAgg : List (String × OutBee) :=
  [("forestry.speciesForest", { mod := "Forestry", name := "Forest" }),
   ("forestry.speciesMeadows", { mod := "Forestry", name := "Meadows" }),
   ("forestry.speciesCommon", { mod := "Forestry", name := "Common" })]

/-- A record whose `parent1` is unresolvable and which carries no source
location. -/
def mutGhost : Mutation :=
  { parent1 := some "unknownmod.ghost"
    parent2 := some "forestry.speciesMeadows"
    offspring := some "forestry.speciesCommon"
    chance := 15 }

/-- A twice-parsed identical record with no conditions. -/
def mutCommon : Mutation :=
  { parent1 := some "forestry.speciesForest"
    parent2 := some "forestry.speciesMeadows"
    offspring := some "forestry.speciesCommon"
    chance := 15 }

/-- The specification's claimed resolver, modelled from its words: the
same three patterns, then (for names with underscores, regardless of mod)
the three patterns with separators converted to spaces and words
capitalized, and the three patterns with separators stripped entirely. -/
def claimedResolve (bees : List (String × OutBee)) (id : String) :
    Option OutBee :=
  match lookupL bees id with
  | some b => some b
  | none =>
    if jsContainsChar id ':' then
      let parts := jsSplit id ':'
      let modTok := (parts.get? 0).getD ""
      let nm := (parts.get? 1).getD ""
      let pfx := modPrefixOf modTok
      let tryPatterns := fun (s : String) =>
        findFirstKey bees
          [pfx ++ "." ++ jsLower s, pfx ++ ".species" ++ s,
           pfx ++ ".species." ++ jsLower s]
      match tryPatterns nm with
      | some b => some b
      | none =>
        if jsContainsChar nm '_' then
          match tryPatterns (nameWithSpaces nm) with
          | some b => some b
          | none => tryPatterns (jsRemoveChar nm '_')
        else none
    else none

/-! ### Client loader conversion
(`convertBreedingPairsToMutations`, src/src/data/dataLoader.js) -/

/-- One entry of the parsed `bees.jsonc` as the loader reads it (only
`name` and `mod` are consulted). -/
structure BeesJsonEntry where
  name : Option String := none
  mod : Option String := none
deriving Repr, DecidableEq

/-- One parsed breeding pair: the two parents plus the keys of the
`children` object (the per-child payload is never read). -/
structure BreedingPair where
  parents : String × String
  children : List String
deriving Repr, DecidableEq

/-- The per-bee record built by the loader. -/
structure LoaderEntry where
  id : String
  name : String
  mod : String
  parentCombinations : List (List String)
  children : List String
deriving Repr, DecidableEq

/-- Placeholder synthesized for an id absent from the bees map: mod and
name derived by splitting the id at `:` when it has exactly two parts. -/
def placeholderEntry (id : String) : LoaderEntry :=
  let parts := jsSplit id ':'
  if parts.length == 2 then
    { id := id
      name := (parts.get? 1).getD ""
      mod := (parts.get? 0).getD ""
      parentCombinations := []
      children := [] }
  else
    { id := id
      name := id
      mod := "Unknown"
      parentCombinations := []
      children := [] }

/-- `Object.entries(beesData).forEach(...)`: initialize every bee from
`bees.jsonc` with empty combination and child lists. -/
def initLoaderMap (beesData : List (String × BeesJsonEntry)) :
    List (String × LoaderEntry) :=
  beesData.map (fun kv =>
    (kv.1,
     { id := kv.1
       name := jsOr kv.2.name (nameFallback kv.1)
       mod := jsOr kv.2.mod "Unknown"
       parentCombinations := []
       children := [] }))

/-- Synthesize the placeholder when the id is not yet a key. -/
def ensureEntry (m : List (String × LoaderEntry)) (id : String) :
    List (String × LoaderEntry) :=
  if hasKeyL m id then m else m ++ [(id, placeholderEntry id)]

/-- `beeData[childId].parentCombinations.push([parent1, parent2])`. -/
def pushParentCombo (m : List (String × LoaderEntry))
    (childId p1 p2 : String) : List (String × LoaderEntry) :=
  m.map (fun kv =>
    if kv.1 == childId then
      (kv.1, { kv.2 with
        parentCombinations := kv.2.parentCombinations ++ [[p1, p2]] })
    else kv)

/-- `if (!….children.includes(childId)) ….children.push(childId)`. -/
def addChildTo (m : List (String × LoaderEntry))
    (parentId childId : String) : List (String × LoaderEntry) :=
  m.map (fun kv =>
    if kv.1 == parentId then
      (kv.1, { kv.2 with
        children :=
          if childId ∈ kv.2.children then kv.2.children
          else kv.2.children ++ [childId] })
    else kv)

/-- Body of the inner `Object.entries(pair.children).forEach`: ensure the
child and both parents exist, push the parent combination onto the child
and register the child with both parents. -/
def processLoaderChild (p1 p2 : String) (m : List (String × LoaderEntry))
    (childId : String) : List (String × LoaderEntry) :=
  let m1 := ensureEntry m childId
  let m2 := ensureEntry m1 p1
  let m3 := ensureEntry m2 p2
  let m4 := pushParentCombo m3 childId p1 p2
  let m5 := addChildTo m4 p1 childId
  addChildTo m5 p2 childId

def convertBreedingPairsToMutations (breedingPairs : List BreedingPair)
    (beesData : List (String × BeesJsonEntry)) :
    List (String × LoaderEntry) :=
  breedingPairs.foldl
    (fun m pair =>
      pair.children.foldl
        (processLoaderChild pair.parents.1 pair.parents.2) m)
    (initLoaderMap beesData)

/-- The loader map viewed as the `beeData` consumed by
`buildHierarchy` (every field present). -/
def loaderToBeeData (m : List (String × LoaderEntry)) : BeeData :=
  m.map (fun kv =>
    (kv.1,
     { name := some kv.2.name
       mod := some kv.2.mod
       parentCombinations := some kv.2.parentCombinations
       children := some kv.2.children }))

/-- Referential closure: every id referenced from any entry's combination
or child list is itself a key of the map. -/
def refsClosed (m : List (String × LoaderEntry)) : Prop :=
  ∀ kv ∈ m,
    (∀ c ∈ kv.2.parentCombinations, ∀ p ∈ c, hasKeyL m p = true) ∧
    (∀ ch ∈ kv.2.children, hasKeyL m ch = true)

/-! ### Graph query layer: `getAllAncestors` / `getAllDescendants`
(class methods of the visualization app, src/unnamed/part_002)

The query layer reads `this.nodeMap`; only the `parents` and `children`
fields of a node are consulted. -/

structure QNode where
  parents : List String := []
  children : List String := []
deriving Repr, DecidableEq

structure QGraph where
  nodes : List (String × QNode)
deriving Repr, DecidableEq

/-- `this.nodeMap.get(nodeId)`. -/
def QGraph.lookup (g : QGraph) (id : String) : Option QNode :=
  (g.nodes.find? (fun kv => kv.1 == id)).map (·.2)

def QGraph.ids (g : QGraph) : List String :=
  g.nodes.map Prod.fst

/-- `getAllAncestors(nodeId, visited)`: return `∅` on a visited node,
otherwise add each parent and the recursive ancestors of that parent,
where each recursive call receives a copy of the visited set extended
with the current node.  The JS recursion carries no `fuel`; the extra
argument only makes the recursion structural, and
`ancestorsAux_fuel_irrelevant` below proves that any fuel exceeding the
number of unvisited node ids yields the same result, so the wrapper
`getAllAncestors` computes the value of the source recursion (and that
recursion terminates). -/
def ancestorsAux (g : QGraph) : Nat → List String → String → Finset String
  | 0, _, _ => ∅
  | fuel + 1, visited, nodeId =>
    if nodeId ∈ visited then ∅
    else
      match g.lookup nodeId with
      | none => ∅
      | some node =>
        node.parents.foldl
          (fun acc p => insert p acc ∪ ancestorsAux g fuel (nodeId :: visited) p) ∅

def getAllAncestors (g : QGraph) (nodeId : String) : Finset String :=
  ancestorsAux g (g.nodes.length + 1) [] nodeId

/-- `getAllDescendants(nodeId, visited)`: mirror of `ancestorsAux` over
the `children` lists. -/
def descendantsAux (g : QGraph) : Nat → List String → String → Finset String
  | 0, _, _ => ∅
  | fuel + 1, visited, nodeId =>
    if nodeId ∈ visited then ∅
    else
      match g.lookup nodeId with
      | none => ∅
      | some node =>
        node.children.foldl
          (fun acc c => insert c acc ∪ descendantsAux g fuel (nodeId :: visited) c) ∅

def getAllDescendants (g : QGraph) (nodeId : String) : Finset String :=
  descendantsAux g (g.nodes.length + 1) [] nodeId

/-- Number of node ids not yet visited: the measure that shrinks at every
recursive call of the traversals. -/
def unvisitedCount (g : QGraph) (visited : List String) : Nat :=
  (g.ids.filter (fun i => decide (i ∉ visited))).length

/-- The hand-built diamond hierarchy of the specification's test property:
`A→B, A→C, B→D, C→D`. -/
def qDiamond : QGraph :=
  ⟨[("A", { parents := [], children := ["B", "C"] }),
    ("B", { parents := ["A"], children := ["D"] }),
    ("C", { parents := ["A"], children := ["D"] }),
    ("D", { parents := ["B", "C"], children := [] })]⟩

/-- A hierarchy with a two-node cycle `a ↔ b`. -/
def qCycle : QGraph :=
  ⟨[("a", { parents := ["b"], children := ["b"] }),
    ("b", { parents := ["a"], children := ["a"] })]⟩

/-! ### Lemmas about the relaxation -/

theorem gmGet?_cons (b : String) (v : Nat) (g : GenMap) (k : String) :
    gmGet? ((b, v) :: g) k = if b == k then some v else gmGet? g k := by
  simp only [gmGet?, List.find?]
  by_cases h : b == k <;> simp [h]

theorem keys_nodup_unique {α : Type} (m : List (String × α))
    (hnd : (m.map Prod.fst).Nodup) {b : String} {i₁ i₂ : α}
    (h₁ : (b, i₁) ∈ m) (h₂ : (b, i₂) ∈ m) : i₁ = i₂ := by
  induction m with
  | nil => cases h₁
  | cons kv t ih =>
    simp only [List.map_cons, List.nodup_cons] at hnd
    rcases List.mem_cons.mp h₁ with h₁ | h₁ <;>
      rcases List.mem_cons.mp h₂ with h₂ | h₂
    · have := h₁.trans h₂.symm
      simpa using this
    · have hb : b ∈ t.map Prod.fst := List.mem_map_of_mem Prod.fst h₂
      have hk : kv.1 = b := by rw [← h₁]
      exact absurd hb (hk ▸ hnd.1)
    · have hb : b ∈ t.map Prod.fst := List.mem_map_of_mem Prod.fst h₁
      have hk : kv.1 = b := by rw [← h₂]
      exact absurd hb (hk ▸ hnd.1)
    · exact ih hnd.2 h₁ h₂

theorem combinationScan_ready (g : GenMap) (c : List String)
    (hr : comboReady g c = true) :
    ∀ a : Int, combinationScan g c a =
      (c.foldl (fun x p => max x (((gmGet? g p).getD 0 : Nat) : Int)) a, true) := by
  induction c with
  | nil => intro a; rfl
  | cons p ps ih =>
    intro a
    simp only [comboReady, List.all_cons, Bool.and_eq_true] at hr
    rcases hval : gmGet? g p with _ | gp
    · rw [hval] at hr; simp at hr
    · simp only [combinationScan, hval, List.foldl_cons, hval, Option.getD_some]
      exact ih hr.2 (max a gp)

theorem combinationScan_not_ready (g : GenMap) (c : List String)
    (hr : comboReady g c = false) :
    ∀ a : Int, (combinationScan g c a).2 = false := by
  induction c with
  | nil => simp [comboReady] at hr
  | cons p ps ih =>
    intro a
    rcases hval : gmGet? g p with _ | gp
    · simp [combinationScan, hval]
    · simp only [comboReady, List.all_cons, Bool.and_eq_true] at hr
      simp only [combinationScan, hval]
      apply ih
      simp only [comboReady]
      rw [hval] at hr
      simp at hr
      simp [hr]

theorem combinationScan_true_spec (g : GenMap) :
    ∀ (c : List String) (a v : Int), combinationScan g c a = (v, true) →
      a ≤ v ∧ ∀ p ∈ c, ∃ gp, gmGet? g p = some gp ∧ (gp : Int) ≤ v := by
  intro c
  induction c with
  | nil =>
    intro a v h
    simp only [combinationScan, Prod.mk.injEq] at h
    exact ⟨le_of_eq h.1, by simp⟩
  | cons p ps ih =>
    intro a v h
    rcases hval : gmGet? g p with _ | gp
    · rw [combinationScan, hval] at h; cases h
    · rw [combinationScan, hval] at h
      obtain ⟨hle, hall⟩ := ih (max a gp) v h
      refine ⟨le_trans (le_max_left a gp) hle, ?_⟩
      intro q hq
      rcases List.mem_cons.mp hq with rfl | hq
      · exact ⟨gp, hval, le_trans (le_max_right a _) hle⟩
      · exact hall q hq

theorem combosScan_foldl_true (g : GenMap) :
    ∀ (combos : List (List String)) (a : Int) (b : Bool) (m : Int),
      combos.foldl
        (fun acc parents =>
          match combinationScan g parents (-1) with
          | (v, true) => (max acc.1 v, acc.2)
          | (_, false) => (acc.1, false)) (a, b) = (m, true) →
      b = true ∧ a ≤ m ∧
        ∀ c ∈ combos, ∃ v, combinationScan g c (-1) = (v, true) ∧ v ≤ m := by
  intro combos
  induction combos with
  | nil =>
    intro a b m h
    simp only [List.foldl_nil, Prod.mk.injEq] at h
    exact ⟨h.2, le_of_eq h.1, by simp⟩
  | cons c cs ih =>
    intro a b m h
    simp only [List.foldl_cons] at h
    rcases hs : combinationScan g c (-1) with ⟨v, vb⟩
    rw [hs] at h
    cases vb with
    | true =>
      obtain ⟨hb, ham, hall⟩ := ih (max a v) b m h
      refine ⟨hb, le_trans (le_max_left a v) ham, ?_⟩
      intro c' hc'
      rcases List.mem_cons.mp hc' with rfl | hc'
      · exact ⟨v, hs, le_trans (le_max_right a v) ham⟩
      · exact hall c' hc'
    | false =>
      obtain ⟨hb, _, _⟩ := ih a false m h
      cases hb

theorem combosScan_true_spec (g : GenMap) (combos : List (List String)) (m : Int)
    (h : combosScan g combos = (m, true)) :
    ∀ c ∈ combos, ∀ p ∈ c, ∃ gp, gmGet? g p = some gp ∧ (gp : Int) ≤ m := by
  intro c hc p hp
  obtain ⟨_, _, hall⟩ := combosScan_foldl_true g combos (-1) true m h
  obtain ⟨v, hv, hvm⟩ := hall c hc
  obtain ⟨_, hps⟩ := combinationScan_true_spec g c (-1) v hv
  obtain ⟨gp, hgp, hle⟩ := hps p hp
  exact ⟨gp, hgp, le_trans hle hvm⟩

theorem combosScan_foldl_ready (g : GenMap) :
    ∀ (combos : List (List String)),
      (∀ c ∈ combos, comboReady g c = true) →
      ∀ (a : Int) (b : Bool),
        combos.foldl
          (fun acc parents =>
            match combinationScan g parents (-1) with
            | (v, true) => (max acc.1 v, acc.2)
            | (_, false) => (acc.1, false)) (a, b) =
        (combos.foldl (fun x c => max x (comboMaxSpec g c)) a, b) := by
  intro combos
  induction combos with
  | nil => intro _ a b; rfl
  | cons c cs ih =>
    intro h a b
    simp only [List.foldl_cons]
    rw [combinationScan_ready g c (h c (List.mem_cons_self c cs)) (-1)]
    exact ih (fun c' hc' => h c' (List.mem_cons_of_mem c hc')) (max a (comboMaxSpec g c)) b

theorem combosScan_all_ready (g : GenMap) (combos : List (List String))
    (h : ∀ c ∈ combos, comboReady g c = true) :
    combosScan g combos = (allCombosMax g combos, true) := by
  unfold combosScan allCombosMax
  exact combosScan_foldl_ready g combos h (-1) true

theorem combosScan_foldl_false (g : GenMap) :
    ∀ (combos : List (List String)) (a : Int),
      (combos.foldl
        (fun acc parents =>
          match combinationScan g parents (-1) with
          | (v, true) => (max acc.1 v, acc.2)
          | (_, false) => (acc.1, false)) (a, false)).2 = false := by
  intro combos
  induction combos with
  | nil => intro a; rfl
  | cons c cs ih =>
    intro a
    simp only [List.foldl_cons]
    rcases hs : combinationScan g c (-1) with ⟨v, vb⟩
    cases vb with
    | true => exact ih (max a v)
    | false => exact ih a

theorem combosScan_not_all_ready (g : GenMap) (combos : List (List String))
    (h : ∃ c ∈ combos, comboReady g c = false) :
    (combosScan g combos).2 = false := by
  unfold combosScan
  obtain ⟨c₀, hc₀, hbad⟩ := h
  have key : ∀ (cs : List (List String)) (a : Int),
      c₀ ∈ cs →
      (cs.foldl
        (fun acc parents =>
          match combinationScan g parents (-1) with
          | (v, true) => (max acc.1 v, acc.2)
          | (_, false) => (acc.1, false)) (a, true)).2 = false := by
    intro cs
    induction cs with
    | nil => intro a hmem; cases hmem
    | cons c cs' ih =>
      intro a hmem
      simp only [List.foldl_cons]
      rcases List.mem_cons.mp hmem with rfl | hmem
      · have h2 := combinationScan_not_ready g c₀ hbad (-1)
        rcases hs : combinationScan g c₀ (-1) with ⟨v, vb⟩
        rw [hs] at h2
        cases vb with
        | true => cases h2
        | false => exact combosScan_foldl_false g cs' a
      · rcases hs : combinationScan g c (-1) with ⟨v, vb⟩
        cases vb with
        | true => exact ih (max a v) hmem
        | false => exact combosScan_foldl_false g cs' a
  exact key combos (-1) hc₀

theorem foldl_max_le_init {α : Type} (f : α → Int) :
    ∀ (l : List α) (a : Int), a ≤ l.foldl (fun x c => max x (f c)) a := by
  intro l
  induction l with
  | nil => intro a; exact le_refl a
  | cons c cs ih =>
    intro a
    exact le_trans (le_max_left a (f c)) (ih (max a (f c)))

theorem mem_le_foldl_max {α : Type} (f : α → Int) :
    ∀ (l : List α) (a : Int) (c : α), c ∈ l →
      f c ≤ l.foldl (fun x x' => max x (f x')) a := by
  intro l
  induction l with
  | nil => intro a c hc; cases hc
  | cons c₀ cs ih =>
    intro a c hc
    simp only [List.foldl_cons]
    rcases List.mem_cons.mp hc with rfl | hc
    · exact le_trans (le_max_right a (f c)) (foldl_max_le_init f cs (max a (f c)))
    · exact ih (max a (f c₀)) c hc

theorem comboMaxSpec_nonneg (g : GenMap) (c : List String) (hne : c ≠ []) :
    0 ≤ comboMaxSpec g c := by
  rcases c with _ | ⟨p, ps⟩
  · exact absurd rfl hne
  · unfold comboMaxSpec
    simp only [List.foldl_cons]
    refine le_trans ?_ (foldl_max_le_init _ ps _)
    exact le_trans (Int.ofNat_nonneg _) (le_max_right _ _)

theorem allCombosMax_nonneg (g : GenMap) (combos : List (List String))
    (c : List String) (hc : c ∈ combos) (hne : c ≠ []) :
    0 ≤ allCombosMax g combos := by
  exact le_trans (comboMaxSpec_nonneg g c hne) (mem_le_foldl_max _ combos (-1) c hc)

/-! ### Claim C1 -/

/-- C1, counterexample.  In `bdC1` the bee `x` has the ready parent
combination `["a"]` (with maximum parent generation 0), yet the relaxation
never assigns `x` (its other combination `["b"]` dangles), so its emitted
generation is the fallback 0 and not the `1 + 0` the claim demands: one
ready combination does not suffice for assignment. -/
theorem C1_counterexample :
    comboReady (finalGenMap bdC1) ["a"] = true ∧
    gmGet? (finalGenMap bdC1) "a" = some 0 ∧
    (some ["a"], some ["b"]) =
      ((lookupL bdC1 "x").bind (·.parentCombinations) |>.bind (·.get? 0),
       (lookupL bdC1 "x").bind (·.parentCombinations) |>.bind (·.get? 1)) ∧
    gmGet? (finalGenMap bdC1) "x" = none ∧
    generationOf (buildHierarchy bdC1) "x" = some 0 ∧
    generationOf (buildHierarchy bdC1) "x" ≠ some 1 := by
  refine ⟨by decide, by decide, by decide, by decide, by decide, by decide⟩

/-- C1, amended.  A still-unassigned node whose combination list is
nonempty is assigned by a relaxation step only when EVERY one of its
parent combinations is ready; it then receives `1 + max` over ALL
combinations of the combination's maximum parent generation.  If any
single combination is not ready the node stays unassigned in that step,
even when other combinations are ready. -/
theorem C1_all_combinations_required (g : GenMap) (bee : String)
    (info : BeeInfo) (combos : List (List String))
    (hun : gmGet? g bee = none)
    (hpc : info.parentCombinations = some combos)
    (hne : combos ≠ []) :
    ((∀ c ∈ combos, comboReady g c = true) → (∃ c ∈ combos, c ≠ []) →
      relaxBee g bee info =
        ((bee, (allCombosMax g combos + 1).toNat) :: g, true)) ∧
    ((∃ c ∈ combos, comboReady g c = false) →
      relaxBee g bee info = (g, false)) := by
  constructor
  · intro hall hwit
    obtain ⟨c₀, hc₀, hcne⟩ := hwit
    have hnn : 0 ≤ allCombosMax g combos := allCombosMax_nonneg g combos c₀ hc₀ hcne
    unfold relaxBee
    rw [hun]
    simp only [Option.isSome_none, Bool.false_eq_true, if_false, hpc]
    rw [combosScan_all_ready g combos hall]
    have hlen : combos.length > 0 := List.length_pos.mpr hne
    simp [hlen, hnn]
  · intro hbad
    have h2 := combosScan_not_all_ready g combos hbad
    unfold relaxBee
    rw [hun]
    simp only [Option.isSome_none, Bool.false_eq_true, if_false, hpc]
    rcases hs : combosScan g combos with ⟨m, allv⟩
    rw [hs] at h2
    simp at h2
    subst h2
    have hlen : combos.length > 0 := List.length_pos.mpr hne
    simp [hlen]

/-- Witness for `C1_all_combinations_required` at a concrete input:
with `a` assigned generation 2, the bee `x` whose only combination is
`["a"]` is assigned generation 3 by the step. -/
theorem C1_all_combinations_required_witness :
    relaxBee [("a", 2)] "x" { parentCombinations := some [["a"]] } =
      (("x", 3) :: [("a", 2)], true) := by
  have h := (C1_all_combinations_required [("a", 2)] "x"
      { parentCombinations := some [["a"]] } [["a"]]
      (by decide) rfl (by decide)).1
      (by decide) ⟨["a"], by decide, by decide⟩
  rw [h]
  decide

/-! ### Claim C3 -/

theorem relaxBee_cases (g : GenMap) (bee : String) (info : BeeInfo) :
    (relaxBee g bee info).2 = true ∨ relaxBee g bee info = (g, false) := by
  unfold relaxBee
  split
  · right; rfl
  · split
    · right; rfl
    · rename_i combos heq
      split
      · rcases hs : combosScan g combos with ⟨m, allv⟩
        by_cases hc : 0 ≤ m ∧ allv = true
        · left; simp [hc]
        · right; simp [hc]
      · right; rfl

theorem relaxBee_snd_false (g : GenMap) (bee : String) (info : BeeInfo)
    (h : (relaxBee g bee info).2 = false) : (relaxBee g bee info).1 = g := by
  rcases relaxBee_cases g bee info with h2 | h2
  · rw [h2] at h; cases h
  · rw [h2]

theorem relaxPass_foldl_false :
    ∀ (l : List (String × BeeInfo)) (g : GenMap) (b : Bool),
      (l.foldl
        (fun acc kv =>
          ((relaxBee acc.1 kv.1 kv.2).1, acc.2 || (relaxBee acc.1 kv.1 kv.2).2))
        (g, b)).2 = false →
      (l.foldl
        (fun acc kv =>
          ((relaxBee acc.1 kv.1 kv.2).1, acc.2 || (relaxBee acc.1 kv.1 kv.2).2))
        (g, b)).1 = g ∧ b = false := by
  intro l
  induction l with
  | nil => intro g b h; exact ⟨rfl, h⟩
  | cons kv t ih =>
    intro g b h
    simp only [List.foldl_cons] at h ⊢
    obtain ⟨h1, h2⟩ := ih _ _ h
    rcases Bool.or_eq_false_iff.mp h2 with ⟨hb, hr⟩
    exact ⟨h1.trans (relaxBee_snd_false g kv.1 kv.2 hr), hb⟩

theorem relaxPass_snd_false (bd : BeeData) (g : GenMap)
    (h : (relaxPass bd g).2 = false) : (relaxPass bd g).1 = g := by
  have := relaxPass_foldl_false bd g false
  unfold relaxPass at *
  exact (this (by
    convert h using 2)).1

theorem relaxLoop_count_le (bd : BeeData) :
    ∀ (fuel : Nat) (g : GenMap), (relaxLoop bd fuel g).2 ≤ fuel := by
  intro fuel
  induction fuel with
  | zero => intro g; exact le_refl 0
  | succ n ih =>
    intro g
    unfold relaxLoop
    rcases hp : relaxPass bd g with ⟨g', ch⟩
    cases ch with
    | true => simpa using ih g'
    | false => simp

theorem relaxLoop_stops (bd : BeeData) :
    ∀ (fuel : Nat) (g : GenMap), 0 < fuel →
      (relaxLoop bd fuel g).2 = fuel ∨
      relaxPass bd (relaxLoop bd fuel g).1 = ((relaxLoop bd fuel g).1, false) := by
  intro fuel
  induction fuel with
  | zero => intro g h; cases h
  | succ n ih =>
    intro g _
    unfold relaxLoop
    rcases hp : relaxPass bd g with ⟨g', ch⟩
    cases ch with
    | true =>
      simp only [hp]
      rcases Nat.eq_zero_or_pos n with rfl | hn
      · left
        unfold relaxLoop
        rfl
      · rcases ih g' hn with hcount | hfix
        · left
          simp [hcount]
        · right
          simpa using hfix
    | false =>
      right
      have hg : g' = g := by
        have h2 := relaxPass_snd_false bd g (by rw [hp])
        rw [hp] at h2
        exact h2
      simp only [Bool.false_eq_true, if_false]
      rw [hg] at hp ⊢
      exact hp

/-- `find?` over the node list of `buildHierarchy`: any key of `beeData`
yields a node whose generation is the final map value with default 0. -/
theorem find?_node_of_key (g : GenMap) (bd : BeeData) (bee : String)
    (h : bee ∈ bd.map Prod.fst) :
    ∃ n, (bd.map (fun kv => mkNode g kv.1 kv.2)).find? (fun x => x.id == bee) = some n ∧
      n.id = bee ∧ n.generation = (gmGet? g bee).getD 0 := by
  induction bd with
  | nil => cases h
  | cons kv t ih =>
    by_cases hk : kv.1 == bee
    · refine ⟨mkNode g kv.1 kv.2, ?_, ?_, ?_⟩
      · simp only [List.map_cons, List.find?_cons]
        have : (mkNode g kv.1 kv.2).id == bee := hk
        rw [this]
      · simpa [mkNode] using eq_of_beq hk
      · have hbee : kv.1 = bee := eq_of_beq hk
        simp [mkNode, hbee]
    · have hbee : bee ∈ t.map Prod.fst := by
        simp only [List.map_cons, List.mem_cons] at h
        rcases h with h | h
        · exact absurd (beq_iff_eq.mpr h.symm) (by simpa using hk)
        · exact h
      obtain ⟨n, hn, hid, hgen⟩ := ih hbee
      refine ⟨n, ?_, hid, hgen⟩
      simp only [List.map_cons, List.find?_cons]
      have : ((mkNode g kv.1 kv.2).id == bee) = false := by
        simpa [mkNode] using hk
      rw [this]
      exact hn

theorem generationOf_eq (bd : BeeData) (bee : String)
    (h : bee ∈ bd.map Prod.fst) :
    generationOf (buildHierarchy bd) bee =
      some ((gmGet? (finalGenMap bd) bee).getD 0) := by
  obtain ⟨n, hn, _, hgen⟩ := find?_node_of_key (finalGenMap bd) bd bee h
  unfold generationOf buildHierarchy
  simp only []
  rw [hn]
  simp [hgen]

/-- C3.  The relaxation loop always stops: it executes at most 20 passes,
and when it stops short of the cap the final generation map is a fixed
point of a full pass (the pass reports no change and leaves the map
unchanged).  Every species that is still unassigned when the loop stops is
emitted with generation 0. -/
theorem C3_termination (bd : BeeData) (bee : String) (info : BeeInfo)
    (hmem : (bee, info) ∈ bd)
    (hun : gmGet? (finalGenMap bd) bee = none) :
    iterationsUsed bd ≤ 20 ∧
    (iterationsUsed bd = 20 ∨
      relaxPass bd (finalGenMap bd) = (finalGenMap bd, false)) ∧
    generationOf (buildHierarchy bd) bee = some 0 := by
  refine ⟨relaxLoop_count_le bd 20 (initGenMap bd), ?_, ?_⟩
  · exact relaxLoop_stops bd 20 (initGenMap bd) (by norm_num)
  · have hk : bee ∈ bd.map Prod.fst := List.mem_map_of_mem Prod.fst hmem
    rw [generationOf_eq bd bee hk, hun]
    rfl

/-- Witness for `C3_termination`: the two-bee parent cycle `bdCyc`, where
`a` is never assigned and is emitted with generation 0 after the loop
stops. -/
theorem C3_termination_witness :
    iterationsUsed bdCyc ≤ 20 ∧
    (iterationsUsed bdCyc = 20 ∨
      relaxPass bdCyc (finalGenMap bdCyc) = (finalGenMap bdCyc, false)) ∧
    generationOf (buildHierarchy bdCyc) "a" = some 0 :=
  C3_termination bdCyc "a" { parentCombinations := some [["b"]] }
    (by decide) (by decide)

/-! ### Claim C2 -/

/-- The relaxation step never changes an existing binding (insertion only
happens for a key whose lookup is `none`). -/
theorem relaxBee_preserves (g : GenMap) (bee : String) (info : BeeInfo)
    (k : String) (v : Nat) (h : gmGet? g k = some v) :
    gmGet? (relaxBee g bee info).1 k = some v := by
  unfold relaxBee
  split
  · exact h
  · rename_i hnone
    split
    · exact h
    · rename_i combos heq
      split
      · rcases hs : combosScan g combos with ⟨m, allv⟩
        dsimp only
        by_cases hc : 0 ≤ m ∧ allv = true
        · rw [if_pos hc]
          rw [gmGet?_cons]
          have hne : (bee == k) = false := by
            by_cases hbk : bee = k
            · subst hbk
              rw [h] at hnone
              simp at hnone
            · simpa using hbk
          rw [hne]
          · exact h
        · rw [if_neg hc]
          exact h
      · exact h

theorem relaxBee_inv (bd : BeeData) (hnd : (bd.map Prod.fst).Nodup)
    (g : GenMap) (bee : String) (info : BeeInfo)
    (hmem : (bee, info) ∈ bd) (hinv : GenInv bd g) :
    GenInv bd (relaxBee g bee info).1 := by
  rcases hiso : (gmGet? g bee).isSome with _ | _
  case true =>
    have : relaxBee g bee info = (g, false) := by
      unfold relaxBee
      rw [hiso]
      simp
    rw [this]
    exact hinv
  case false =>
    have hnone : gmGet? g bee = none := by
      rcases hx : gmGet? g bee with _ | w
      · rfl
      · rw [hx] at hiso; cases hiso
    rcases hpc : info.parentCombinations with _ | combos
    · have : relaxBee g bee info = (g, false) := by
        unfold relaxBee
        rw [hnone, hpc]
        simp
      rw [this]
      exact hinv
    · by_cases hlen : combos.length > 0
      · rcases hs : combosScan g combos with ⟨m, allv⟩
        by_cases hc : 0 ≤ m ∧ allv = true
        · have hstep : relaxBee g bee info = ((bee, (m + 1).toNat) :: g, true) := by
            unfold relaxBee
            rw [hnone, hpc]
            simp only [Option.isSome_none, Bool.false_eq_true, if_false, hlen,
              if_true, hs]
            simp [hc]
          rw [hstep]
          -- the new map
          intro b₂ i₂ hmem₂ gc₂ hlk c hcm p hp
          simp only []
          rw [gmGet?_cons] at hlk
          by_cases hbb : bee == b₂
          · rw [if_pos hbb] at hlk
            have hb₂ : bee = b₂ := eq_of_beq hbb
            subst hb₂
            have hi₂ : i₂ = info := keys_nodup_unique bd hnd hmem₂ hmem
            subst hi₂
            rw [hpc] at hcm
            simp only [Option.getD_some] at hcm
            obtain ⟨gp, hgp, hle⟩ :=
              combosScan_true_spec g combos m (by rw [hs, hc.2]) c hcm p hp
            have hpbee : (bee == p) = false := by
              by_cases hq : bee = p
              · subst hq
                rw [hgp] at hnone
                cases hnone
              · simpa using hq
            refine ⟨gp, ?_, ?_⟩
            · rw [gmGet?_cons, hpbee]
              exact hgp
            · have hv : gc₂ = (m + 1).toNat := by
                injection hlk.symm
              subst hv
              omega
          · rw [Bool.not_eq_true] at hbb
            rw [if_neg (by simp [hbb])] at hlk
            obtain ⟨gp, hgp, hlt⟩ := hinv b₂ i₂ hmem₂ gc₂ hlk c hcm p hp
            have hpbee : (bee == p) = false := by
              by_cases hq : bee = p
              · subst hq
                rw [hgp] at hnone
                cases hnone
              · simpa using hq
            refine ⟨gp, ?_, hlt⟩
            rw [gmGet?_cons, hpbee]
            exact hgp
        · have : relaxBee g bee info = (g, false) := by
            unfold relaxBee
            rw [hnone, hpc]
            simp only [Option.isSome_none, Bool.false_eq_true, if_false, hlen,
              if_true, hs]
            simp [hc]
          rw [this]
          exact hinv
      · have : relaxBee g bee info = (g, false) := by
          unfold relaxBee
          rw [hnone, hpc]
          simp [hlen]
        rw [this]
        exact hinv

theorem relaxPass_foldl_inv (bd : BeeData) (hnd : (bd.map Prod.fst).Nodup) :
    ∀ (l : List (String × BeeInfo)), (∀ kv ∈ l, kv ∈ bd) →
      ∀ (g : GenMap) (b : Bool), GenInv bd g →
        GenInv bd ((l.foldl
          (fun acc kv =>
            ((relaxBee acc.1 kv.1 kv.2).1, acc.2 || (relaxBee acc.1 kv.1 kv.2).2))
          (g, b)).1) := by
  intro l
  induction l with
  | nil => intro _ g b hinv; exact hinv
  | cons kv t ih =>
    intro hsub g b hinv
    simp only [List.foldl_cons]
    refine ih (fun kv' hkv' => hsub kv' (List.mem_cons_of_mem kv hkv')) _ _ ?_
    exact relaxBee_inv bd hnd g kv.1 kv.2
      (by simpa using hsub kv (List.mem_cons_self kv t)) hinv

theorem relaxPass_inv (bd : BeeData) (hnd : (bd.map Prod.fst).Nodup)
    (g : GenMap) (hinv : GenInv bd g) : GenInv bd (relaxPass bd g).1 := by
  unfold relaxPass
  have := relaxPass_foldl_inv bd hnd bd (fun _ h => h) g false hinv
  convert this using 2

theorem relaxLoop_inv (bd : BeeData) (hnd : (bd.map Prod.fst).Nodup) :
    ∀ (fuel : Nat) (g : GenMap), GenInv bd g →
      GenInv bd (relaxLoop bd fuel g).1 := by
  intro fuel
  induction fuel with
  | zero => intro g hinv; exact hinv
  | succ n ih =>
    intro g hinv
    unfold relaxLoop
    rcases hp : relaxPass bd g with ⟨g', ch⟩
    have hg' : GenInv bd g' := by
      have := relaxPass_inv bd hnd g hinv
      rw [hp] at this
      exact this
    cases ch with
    | true => simpa using ih g' hg'
    | false => simpa using hg'

theorem initGenMap_foldl_lookup :
    ∀ (l : List (String × BeeInfo)) (g₀ : GenMap) (b : String) (v : Nat),
      gmGet? (l.foldl (fun g kv => (kv.1, 0) :: g) g₀) b = some v →
      (∃ kv ∈ l, kv.1 = b ∧ v = 0) ∨ gmGet? g₀ b = some v := by
  intro l
  induction l with
  | nil => intro g₀ b v h; right; exact h
  | cons kv t ih =>
    intro g₀ b v h
    simp only [List.foldl_cons] at h
    rcases ih ((kv.1, 0) :: g₀) b v h with ⟨kv', hkv', hb, hv⟩ | h2
    · exact Or.inl ⟨kv', List.mem_cons_of_mem kv hkv', hb, hv⟩
    · rw [gmGet?_cons] at h2
      by_cases hk : kv.1 == b
      · rw [if_pos hk] at h2
        refine Or.inl ⟨kv, List.mem_cons_self kv t, eq_of_beq hk, ?_⟩
        injection h2.symm
      · rw [if_neg (by simpa using hk)] at h2
        right
        exact h2

theorem initGenMap_lookup (bd : BeeData) (b : String) (v : Nat)
    (h : gmGet? (initGenMap bd) b = some v) :
    v = 0 ∧ ∃ i, (b, i) ∈ bd ∧ isBaseBee i = true := by
  unfold initGenMap at h
  rcases initGenMap_foldl_lookup (bd.filter (fun kv => isBaseBee kv.2)) [] b v h with
    ⟨kv, hkv, hb, hv⟩ | h2
  · obtain ⟨hmem, hbase⟩ := List.mem_filter.mp hkv
    refine ⟨hv, kv.2, ?_, hbase⟩
    rw [← hb]
    exact hmem
  · cases h2

theorem initGenMap_inv (bd : BeeData) (hnd : (bd.map Prod.fst).Nodup) :
    GenInv bd (initGenMap bd) := by
  intro bee info hmem gc hlk c hcm p hp
  obtain ⟨hv, i, hi, hbase⟩ := initGenMap_lookup bd bee gc hlk
  have hii : i = info := keys_nodup_unique bd hnd hi hmem
  subst hii
  unfold isBaseBee at hbase
  rcases hpc : i.parentCombinations with _ | l
  · rw [hpc] at hcm
    simp at hcm
  · rw [hpc] at hbase hcm
    simp only [List.isEmpty_iff] at hbase
    subst hbase
    simp at hcm

theorem finalGenMap_inv (bd : BeeData) (hnd : (bd.map Prod.fst).Nodup) :
    GenInv bd (finalGenMap bd) :=
  relaxLoop_inv bd hnd 20 (initGenMap bd) (initGenMap_inv bd hnd)

theorem hasKeyL_iff {α : Type} (m : List (String × α)) (k : String) :
    hasKeyL m k = true ↔ k ∈ m.map Prod.fst := by
  unfold hasKeyL
  rw [List.any_eq_true]
  constructor
  · rintro ⟨kv, hkv, hk⟩
    have : kv.1 = k := eq_of_beq hk
    rw [← this]
    exact List.mem_map_of_mem Prod.fst hkv
  · intro h
    obtain ⟨kv, hkv, hk⟩ := List.mem_map.mp h
    exact ⟨kv, hkv, beq_iff_eq.mpr hk⟩

/-- Decomposition of an emitted link: its target is a key of `beeData`
whose record has a combination containing the source, and the source is a
key of `beeData`. -/
theorem link_mem (bd : BeeData) (l : String × String)
    (h : l ∈ (buildHierarchy bd).links) :
    ∃ bee info, (bee, info) ∈ bd ∧ l.2 = bee ∧
      (∃ c ∈ info.parentCombinations.getD [], l.1 ∈ c) ∧
      hasKeyL bd l.1 = true := by
  unfold buildHierarchy at h
  simp only [List.mem_flatMap] at h
  obtain ⟨node, hnode, hl⟩ := h
  obtain ⟨kv, hkv, hmk⟩ := List.mem_map.mp hnode
  unfold nodeLinks at hl
  simp only [List.mem_flatMap, List.mem_map] at hl
  obtain ⟨pair, hpair, p, hpf, hpl⟩ := hl
  obtain ⟨hpmem, hpkey⟩ := List.mem_filter.mp hpf
  refine ⟨kv.1, kv.2, hkv, ?_, ⟨pair, ?_, ?_⟩, ?_⟩
  · rw [← hpl]
    simp only []
    rw [← hmk]
    rfl
  · rw [← hmk] at hpair
    simpa [mkNode] using hpair
  · rw [← hpl]
    exact hpmem
  · rw [← hpl]
    exact hpkey

/-- C2.  For every emitted edge whose child was actually assigned by the
relaxation (its id is in the final generation map, i.e. it was not forced
to the fallback 0), the child's emitted generation strictly exceeds the
parent's. -/
theorem C2_generation_monotone (bd : BeeData)
    (hnd : (bd.map Prod.fst).Nodup)
    (l : String × String) (hl : l ∈ (buildHierarchy bd).links)
    (gc : Nat) (hc : gmGet? (finalGenMap bd) l.2 = some gc) :
    ∃ gp, gmGet? (finalGenMap bd) l.1 = some gp ∧
      generationOf (buildHierarchy bd) l.1 = some gp ∧
      generationOf (buildHierarchy bd) l.2 = some gc ∧
      gp < gc := by
  obtain ⟨bee, info, hmem, hl2, ⟨c, hcm, hpc⟩, hkey⟩ := link_mem bd l hl
  have hinv := finalGenMap_inv bd hnd
  rw [hl2] at hc
  obtain ⟨gp, hgp, hlt⟩ := hinv bee info hmem gc hc c hcm l.1 hpc
  have hk1 : l.1 ∈ bd.map Prod.fst := (hasKeyL_iff bd l.1).mp hkey
  have hk2 : l.2 ∈ bd.map Prod.fst := by
    rw [hl2]
    exact List.mem_map_of_mem Prod.fst hmem
  refine ⟨gp, hgp, ?_, ?_, hlt⟩
  · rw [generationOf_eq bd l.1 hk1, hgp]
    rfl
  · rw [generationOf_eq bd l.2 hk2, hl2, hc]
    rfl

/-- Witness for `C2_generation_monotone`: in the literal spec scenario the
edge `forest → common` relates generation 0 to generation 1. -/
theorem C2_generation_monotone_witness :
    ∃ gp, gmGet? (finalGenMap bdScen) "forestry.forest" = some gp ∧
      generationOf (buildHierarchy bdScen) "forestry.forest" = some gp ∧
      generationOf (buildHierarchy bdScen) "forestry.common" = some 1 ∧
      gp < 1 :=
  C2_generation_monotone bdScen (by decide)
    ("forestry.forest", "forestry.common") (by decide) 1 (by decide)

/-! ### Claim C9 -/

theorem strLtAux_trans :
    ∀ a b c : List Char, strLtAux a b = true → strLtAux b c = true →
      strLtAux a c = true := by
  intro a
  induction a with
  | nil =>
    intro b c hab hbc
    cases b with
    | nil => exact hbc
    | cons y bs =>
      cases c with
      | nil => cases hbc
      | cons z cs => rfl
  | cons x as ih =>
    intro b c hab hbc
    cases b with
    | nil => cases hab
    | cons y bs =>
      cases c with
      | nil => cases hbc
      | cons z cs =>
        unfold strLtAux at hab hbc ⊢
        by_cases hxy : x = y
        · subst hxy
          rw [if_pos rfl] at hab
          by_cases hyz : x = z
          · subst hyz
            rw [if_pos rfl] at hbc ⊢
            exact ih bs cs hab hbc
          · rw [if_neg hyz] at hbc ⊢
            exact hbc
        · rw [if_neg hxy] at hab
          have hlt1 : x < y := of_decide_eq_true hab
          by_cases hyz : y = z
          · subst hyz
            rw [if_neg hxy]
            exact hab
          · rw [if_neg hyz] at hbc
            have hlt2 : y < z := of_decide_eq_true hbc
            have hlt : x < z := lt_trans hlt1 hlt2
            rw [if_neg (ne_of_lt hlt)]
            exact decide_eq_true hlt

theorem strLtAux_asymm :
    ∀ a b : List Char, strLtAux a b = true → strLtAux b a = false := by
  intro a
  induction a with
  | nil =>
    intro b hab
    cases b with
    | nil => cases hab
    | cons y bs => rfl
  | cons x as ih =>
    intro b hab
    cases b with
    | nil => cases hab
    | cons y bs =>
      unfold strLtAux at hab ⊢
      by_cases hxy : x = y
      · subst hxy
        rw [if_pos rfl] at hab ⊢
        exact ih bs hab
      · rw [if_neg hxy] at hab
        have hlt : x < y := of_decide_eq_true hab
        rw [if_neg (ne_of_gt hlt)]
        exact decide_eq_false (not_lt_of_gt hlt)

theorem strLtAux_connex :
    ∀ a b : List Char, strLtAux a b = false → strLtAux b a = false →
      a = b := by
  intro a
  induction a with
  | nil =>
    intro b hab _
    cases b with
    | nil => rfl
    | cons y bs => cases hab
  | cons x as ih =>
    intro b hab hba
    cases b with
    | nil => cases hba
    | cons y bs =>
      unfold strLtAux at hab hba
      by_cases hxy : x = y
      · subst hxy
        rw [if_pos rfl] at hab hba
        rw [ih bs hab hba]
      · rw [if_neg hxy] at hab
        rw [if_neg (fun h => hxy h.symm)] at hba
        have h1 : ¬x < y := of_decide_eq_false hab
        have h2 : ¬y < x := of_decide_eq_false hba
        exact absurd (le_antisymm (le_of_not_lt h2) (le_of_not_lt h1)) hxy

theorem string_data_inj (a b : String) (h : a.data = b.data) : a = b := by
  cases a
  cases b
  exact congrArg String.mk h

theorem jsLt_asymm (a b : String) (h : jsLt a b = true) : jsLt b a = false :=
  strLtAux_asymm a.data b.data h

theorem jsLt_trans (a b c : String) (h1 : jsLt a b = true)
    (h2 : jsLt b c = true) : jsLt a c = true :=
  strLtAux_trans a.data b.data c.data h1 h2

theorem jsLt_connex (a b : String) (h1 : jsLt a b = false)
    (h2 : jsLt b a = false) : a = b :=
  string_data_inj a b (strLtAux_connex a.data b.data h1 h2)

theorem jsLe_total (a b : String) : jsLe a b = true ∨ jsLe b a = true := by
  unfold jsLe
  rcases h : jsLt b a with _ | _
  · left; rfl
  · right
    rw [jsLt_asymm b a h]
    rfl

theorem jsLe_trans (a b c : String) (h1 : jsLe a b = true)
    (h2 : jsLe b c = true) : jsLe a c = true := by
  unfold jsLe at h1 h2 ⊢
  have hba : jsLt b a = false := by
    rcases h : jsLt b a with _ | _
    · rfl
    · rw [h] at h1; cases h1
  have hcb : jsLt c b = false := by
    rcases h : jsLt c b with _ | _
    · rfl
    · rw [h] at h2; cases h2
  rcases hca : jsLt c a with _ | _
  · rfl
  · exfalso
    rcases hbc : jsLt b c with _ | _
    · have hbceq : b = c := jsLt_connex b c hbc hcb
      subst hbceq
      rw [hca] at hba
      cases hba
    · have hlt : jsLt b a = true := jsLt_trans b c a hbc hca
      rw [hlt] at hba
      cases hba

theorem lexLE_trans (a0 a1 b0 b1 c0 c1 : String)
    (h1 : lexLE a0 a1 b0 b1 = true) (h2 : lexLE b0 b1 c0 c1 = true) :
    lexLE a0 a1 c0 c1 = true := by
  unfold lexLE at h1 h2 ⊢
  rcases Bool.or_eq_true_iff.mp h1 with hl1 | hand1
  · rcases Bool.or_eq_true_iff.mp h2 with hl2 | hand2
    · exact Bool.or_eq_true_iff.mpr (Or.inl (jsLt_trans a0 b0 c0 hl1 hl2))
    · simp only [Bool.and_eq_true] at hand2
      obtain ⟨heq, _⟩ := hand2
      have hb0c0 : b0 = c0 := by simpa using heq
      subst hb0c0
      exact Bool.or_eq_true_iff.mpr (Or.inl hl1)
  · simp only [Bool.and_eq_true] at hand1
    obtain ⟨heq, hle1⟩ := hand1
    have hab : a0 = b0 := by simpa using heq
    subst hab
    rcases Bool.or_eq_true_iff.mp h2 with hl2 | hand2
    · exact Bool.or_eq_true_iff.mpr (Or.inl hl2)
    · simp only [Bool.and_eq_true] at hand2
      obtain ⟨heq2, hle2⟩ := hand2
      have hbc : a0 = c0 := by simpa using heq2
      subst hbc
      have hle : jsLe a1 c1 = true := jsLe_trans a1 b1 c1 hle1 hle2
      refine Bool.or_eq_true_iff.mpr (Or.inr ?_)
      simp [hle]

theorem lexLE_total (a0 a1 b0 b1 : String) :
    lexLE a0 a1 b0 b1 = true ∨ lexLE b0 b1 a0 a1 = true := by
  unfold lexLE
  rcases hab : jsLt a0 b0 with _ | _
  · rcases hba : jsLt b0 a0 with _ | _
    · have heq : a0 = b0 := jsLt_connex a0 b0 hab hba
      subst heq
      rcases jsLe_total a1 b1 with h | h
      · left; simp [h]
      · right; simp [h]
    · right; rfl
  · left; rfl

theorem mem_insertSorted {α : Type} (le : α → α → Bool) (x : α) :
    ∀ (l : List α) (a : α), a ∈ insertSorted le x l ↔ a = x ∨ a ∈ l := by
  intro l
  induction l with
  | nil => intro a; simp [insertSorted]
  | cons y ys ih =>
    intro a
    unfold insertSorted
    by_cases h : le x y = true
    · rw [if_pos h]
      exact List.mem_cons
    · rw [if_neg h]
      simp only [List.mem_cons, ih a]
      tauto

theorem pairwise_insertSorted {α : Type} (le : α → α → Bool)
    (htrans : ∀ a b c, le a b = true → le b c = true → le a c = true)
    (htotal : ∀ a b, le a b = true ∨ le b a = true) (x : α) :
    ∀ l : List α, l.Pairwise (fun a b => le a b = true) →
      (insertSorted le x l).Pairwise (fun a b => le a b = true) := by
  intro l
  induction l with
  | nil => intro _; simp [insertSorted]
  | cons y ys ih =>
    intro h
    rw [List.pairwise_cons] at h
    unfold insertSorted
    by_cases hxy : le x y = true
    · rw [if_pos hxy]
      rw [List.pairwise_cons]
      refine ⟨?_, List.pairwise_cons.mpr h⟩
      intro z hz
      rcases List.mem_cons.mp hz with rfl | hz
      · exact hxy
      · exact htrans x y z hxy (h.1 z hz)
    · rw [if_neg hxy]
      rw [List.pairwise_cons]
      refine ⟨?_, ih h.2⟩
      intro z hz
      rcases (mem_insertSorted le x ys z).mp hz with heq | hz
      · subst heq
        rcases htotal z y with hx | hx
        · exact absurd hx hxy
        · exact hx
      · exact h.1 z hz

theorem pairwise_stableSort {α : Type} (le : α → α → Bool)
    (htrans : ∀ a b c, le a b = true → le b c = true → le a c = true)
    (htotal : ∀ a b, le a b = true ∨ le b a = true) :
    ∀ l : List α, (stableSort le l).Pairwise (fun a b => le a b = true) := by
  intro l
  induction l with
  | nil => simp [stableSort]
  | cons x xs ih =>
    have : stableSort le (x :: xs) = insertSorted le x (stableSort le xs) := rfl
    rw [this]
    exact pairwise_insertSorted le htrans htotal x (stableSort le xs) ih

theorem groupLE_trans (a b c : MutationGroup) (h1 : groupLE a b = true)
    (h2 : groupLE b c = true) : groupLE a c = true :=
  lexLE_trans _ _ _ _ _ _ h1 h2

theorem groupLE_total (a b : MutationGroup) :
    groupLE a b = true ∨ groupLE b a = true :=
  lexLE_total _ _ _ _

theorem childLE_trans (a b c : ChildEntry) (h1 : childLE a b = true)
    (h2 : childLE b c = true) : childLE a c = true :=
  jsLe_trans _ _ _ h1 h2

theorem childLE_total (a b : ChildEntry) :
    childLE a b = true ∨ childLE b a = true :=
  jsLe_total _ _

theorem beeLE_trans (a b c : String × OutBee) (h1 : beeLE a b = true)
    (h2 : beeLE b c = true) : beeLE a c = true :=
  lexLE_trans _ _ _ _ _ _ h1 h2

theorem beeLE_total (a b : String × OutBee) :
    beeLE a b = true ∨ beeLE b a = true :=
  lexLE_total _ _ _ _

/-- C9.  The emitted dataset is deterministically ordered: the mutation
groups are sorted by `(first parent, second parent)`, the children of
every emitted group are sorted by offspring id, the bee entries are
sorted by `(mod, name)`, and the builders are functions of their inputs,
so running them twice on the same input yields identical output. -/
theorem C9_deterministic_order (bees : List (String × OutBee))
    (mutations : List Mutation) :
    ((buildBreedingPairsJsonc bees mutations).1.Pairwise
      (fun a b => groupLE a b = true)) ∧
    (∀ gr ∈ (buildBreedingPairsJsonc bees mutations).1,
      gr.children.Pairwise (fun a b => childLE a b = true)) ∧
    ((buildBeesJsonc bees).Pairwise (fun a b => beeLE a b = true)) ∧
    buildBreedingPairsJsonc bees mutations =
      buildBreedingPairsJsonc bees mutations ∧
    buildBeesJsonc bees = buildBeesJsonc bees := by
  refine ⟨?_, ?_, ?_, rfl, rfl⟩
  · unfold buildBreedingPairsJsonc
    simp only []
    apply List.Pairwise.map
    · intro a b hab
      exact hab
    · exact pairwise_stableSort groupLE groupLE_trans groupLE_total _
  · intro gr hgr
    unfold buildBreedingPairsJsonc at hgr
    simp only [List.mem_map] at hgr
    obtain ⟨gr₀, _, hgr₀⟩ := hgr
    rw [← hgr₀]
    exact pairwise_stableSort childLE childLE_trans childLE_total _
  · unfold buildBeesJsonc
    apply List.Pairwise.map
    · intro a b hab
      exact hab
    · exact pairwise_stableSort beeLE beeLE_trans beeLE_total _

/-- Witness for `C9_deterministic_order` on the concrete aggregation
input. -/
theorem C9_deterministic_order_witness :
    ((buildBreedingPairsJsonc beesAgg [mutCommon]).1.Pairwise
      (fun a b => groupLE a b = true)) ∧
    (∀ gr ∈ (buildBreedingPairsJsonc beesAgg [mutCommon]).1,
      gr.children.Pairwise (fun a b => childLE a b = true)) ∧
    ((buildBeesJsonc beesAgg).Pairwise (fun a b => beeLE a b = true)) :=
  ⟨(C9_deterministic_order beesAgg [mutCommon]).1,
   (C9_deterministic_order beesAgg [mutCommon]).2.1,
   (C9_deterministic_order beesAgg [mutCommon]).2.2.1⟩

/-! ### Claim C10 -/

theorem hasKeyL_ensure_mono (m : List (String × LoaderEntry)) (id k : String)
    (h : hasKeyL m k = true) : hasKeyL (ensureEntry m id) k = true := by
  unfold ensureEntry
  by_cases hid : hasKeyL m id = true
  · rw [if_pos hid]
    exact h
  · rw [if_neg hid]
    unfold hasKeyL at h ⊢
    rw [List.any_append]
    simp [h]

theorem hasKeyL_ensure_self (m : List (String × LoaderEntry)) (id : String) :
    hasKeyL (ensureEntry m id) id = true := by
  unfold ensureEntry
  by_cases hid : hasKeyL m id = true
  · rw [if_pos hid]
    exact hid
  · rw [if_neg hid]
    unfold hasKeyL
    rw [List.any_append]
    simp

theorem hasKeyL_pushParentCombo (m : List (String × LoaderEntry))
    (childId p1 p2 k : String) :
    hasKeyL (pushParentCombo m childId p1 p2) k = hasKeyL m k := by
  unfold pushParentCombo hasKeyL
  induction m with
  | nil => rfl
  | cons kv t ih =>
    simp only [List.map_cons, List.any_cons]
    rw [ih]
    by_cases h0 : (kv.1 == childId) = true
    · rw [if_pos h0]
    · rw [if_neg h0]

theorem hasKeyL_addChildTo (m : List (String × LoaderEntry))
    (parentId childId k : String) :
    hasKeyL (addChildTo m parentId childId) k = hasKeyL m k := by
  unfold addChildTo hasKeyL
  induction m with
  | nil => rfl
  | cons kv t ih =>
    simp only [List.map_cons, List.any_cons]
    rw [ih]
    by_cases h0 : (kv.1 == parentId) = true
    · rw [if_pos h0]
    · rw [if_neg h0]

theorem placeholderEntry_combos (id : String) :
    (placeholderEntry id).parentCombinations = [] := by
  unfold placeholderEntry
  dsimp only
  split <;> rfl

theorem placeholderEntry_children (id : String) :
    (placeholderEntry id).children = [] := by
  unfold placeholderEntry
  dsimp only
  split <;> rfl

theorem ensureEntry_closed (m : List (String × LoaderEntry)) (id : String)
    (hm : refsClosed m) : refsClosed (ensureEntry m id) := by
  unfold ensureEntry
  by_cases h : hasKeyL m id = true
  · rw [if_pos h]
    exact hm
  · rw [if_neg h]
    intro kv hkv
    have hmono : ∀ k, hasKeyL m k = true →
        hasKeyL (m ++ [(id, placeholderEntry id)]) k = true := by
      intro k hk
      unfold hasKeyL at hk ⊢
      rw [List.any_append]
      simp [hk]
    rcases List.mem_append.mp hkv with hin | hnew
    · obtain ⟨h1, h2⟩ := hm kv hin
      exact ⟨fun c hc p hp => hmono p (h1 c hc p hp),
             fun ch hch => hmono ch (h2 ch hch)⟩
    · have hkv' : kv = (id, placeholderEntry id) := by simpa using hnew
      subst hkv'
      constructor
      · intro c hc
        rw [placeholderEntry_combos] at hc
        cases hc
      · intro ch hch
        rw [placeholderEntry_children] at hch
        cases hch

theorem pushParentCombo_closed (m : List (String × LoaderEntry))
    (childId p1 p2 : String) (hm : refsClosed m)
    (hp1 : hasKeyL m p1 = true) (hp2 : hasKeyL m p2 = true) :
    refsClosed (pushParentCombo m childId p1 p2) := by
  intro kv' hkv'
  have hkeys : ∀ k, hasKeyL (pushParentCombo m childId p1 p2) k = hasKeyL m k :=
    fun k => hasKeyL_pushParentCombo m childId p1 p2 k
  unfold pushParentCombo at hkv'
  obtain ⟨kv, hkv, heq⟩ := List.mem_map.mp hkv'
  obtain ⟨h1, h2⟩ := hm kv hkv
  by_cases h0 : (kv.1 == childId) = true
  · rw [if_pos h0] at heq
    rw [← heq]
    constructor
    · intro c hc p hp
      simp only [] at hc
      rcases List.mem_append.mp hc with hc | hc
      · rw [hkeys]
        exact h1 c hc p hp
      · have hceq : c = [p1, p2] := by simpa using hc
        subst hceq
        rw [hkeys]
        rcases (by simpa using hp : p = p1 ∨ p = p2) with rfl | rfl
        · exact hp1
        · exact hp2
    · intro ch hch
      rw [hkeys]
      exact h2 ch hch
  · rw [if_neg h0] at heq
    rw [← heq]
    exact ⟨fun c hc p hp => by rw [hkeys]; exact h1 c hc p hp,
           fun ch hch => by rw [hkeys]; exact h2 ch hch⟩

theorem addChildTo_closed (m : List (String × LoaderEntry))
    (parentId childId : String) (hm : refsClosed m)
    (hc : hasKeyL m childId = true) :
    refsClosed (addChildTo m parentId childId) := by
  intro kv' hkv'
  have hkeys : ∀ k, hasKeyL (addChildTo m parentId childId) k = hasKeyL m k :=
    fun k => hasKeyL_addChildTo m parentId childId k
  unfold addChildTo at hkv'
  obtain ⟨kv, hkv, heq⟩ := List.mem_map.mp hkv'
  obtain ⟨h1, h2⟩ := hm kv hkv
  by_cases h0 : (kv.1 == parentId) = true
  · rw [if_pos h0] at heq
    rw [← heq]
    constructor
    · intro c hcm p hp
      rw [hkeys]
      exact h1 c hcm p hp
    · intro ch hch
      simp only [] at hch
      by_cases hin : childId ∈ kv.2.children
      · rw [if_pos hin] at hch
        rw [hkeys]
        exact h2 ch hch
      · rw [if_neg hin] at hch
        rcases List.mem_append.mp hch with hch | hch
        · rw [hkeys]
          exact h2 ch hch
        · have hcheq : ch = childId := by simpa using hch
          subst hcheq
          rw [hkeys]
          exact hc
  · rw [if_neg h0] at heq
    rw [← heq]
    exact ⟨fun c hcm p hp => by rw [hkeys]; exact h1 c hcm p hp,
           fun ch hch => by rw [hkeys]; exact h2 ch hch⟩

theorem processLoaderChild_closed (p1 p2 : String)
    (m : List (String × LoaderEntry)) (childId : String)
    (hm : refsClosed m) :
    refsClosed (processLoaderChild p1 p2 m childId) := by
  unfold processLoaderChild
  have hm3 := ensureEntry_closed _ p2
    (ensureEntry_closed _ p1 (ensureEntry_closed m childId hm))
  have hcK : hasKeyL (ensureEntry (ensureEntry (ensureEntry m childId) p1) p2)
      childId = true :=
    hasKeyL_ensure_mono _ _ _
      (hasKeyL_ensure_mono _ _ _ (hasKeyL_ensure_self m childId))
  have hp1K : hasKeyL (ensureEntry (ensureEntry (ensureEntry m childId) p1) p2)
      p1 = true :=
    hasKeyL_ensure_mono _ _ _ (hasKeyL_ensure_self _ p1)
  have hp2K : hasKeyL (ensureEntry (ensureEntry (ensureEntry m childId) p1) p2)
      p2 = true := hasKeyL_ensure_self _ p2
  have hm4 := pushParentCombo_closed _ childId p1 p2 hm3 hp1K hp2K
  have hc4 : hasKeyL (pushParentCombo
      (ensureEntry (ensureEntry (ensureEntry m childId) p1) p2)
      childId p1 p2) childId = true := by
    rw [hasKeyL_pushParentCombo]
    exact hcK
  have hm5 := addChildTo_closed _ p1 childId hm4 hc4
  have hc5 : hasKeyL (addChildTo (pushParentCombo
      (ensureEntry (ensureEntry (ensureEntry m childId) p1) p2)
      childId p1 p2) p1 childId) childId = true := by
    rw [hasKeyL_addChildTo]
    exact hc4
  exact addChildTo_closed _ p2 childId hm5 hc5

theorem initLoaderMap_closed (beesData : List (String × BeesJsonEntry)) :
    refsClosed (initLoaderMap beesData) := by
  intro kv hkv
  unfold initLoaderMap at hkv
  obtain ⟨kv₀, _, heq⟩ := List.mem_map.mp hkv
  rw [← heq]
  constructor
  · intro c hc
    cases hc
  · intro ch hch
    cases hch

theorem convert_closed (breedingPairs : List BreedingPair)
    (beesData : List (String × BeesJsonEntry)) :
    refsClosed (convertBreedingPairsToMutations breedingPairs beesData) := by
  unfold convertBreedingPairsToMutations
  have key : ∀ (pairs : List BreedingPair) (m : List (String × LoaderEntry)),
      refsClosed m →
      refsClosed (pairs.foldl
        (fun m pair => pair.children.foldl
          (processLoaderChild pair.parents.1 pair.parents.2) m) m) := by
    intro pairs
    induction pairs with
    | nil => intro m hm; exact hm
    | cons pair rest ih =>
      intro m hm
      simp only [List.foldl_cons]
      apply ih
      have inner : ∀ (children : List String) (m' : List (String × LoaderEntry)),
          refsClosed m' →
          refsClosed (children.foldl
            (processLoaderChild pair.parents.1 pair.parents.2) m') := by
        intro children
        induction children with
        | nil => intro m' hm'; exact hm'
        | cons c cs ihc =>
          intro m' hm'
          simp only [List.foldl_cons]
          exact ihc _ (processLoaderChild_closed _ _ m' c hm')
      exact inner pair.children m hm
  exact key breedingPairs (initLoaderMap beesData)
    (initLoaderMap_closed beesData)

/-- Every link `buildHierarchy` emits has both endpoints among the keys of
its input map. -/
theorem links_endpoints (bd : BeeData) (l : String × String)
    (hl : l ∈ (buildHierarchy bd).links) :
    hasKeyL bd l.1 = true ∧ hasKeyL bd l.2 = true := by
  obtain ⟨bee, info, hmem, hl2, _, hkey⟩ := link_mem bd l hl
  refine ⟨hkey, ?_⟩
  rw [hasKeyL_iff, hl2]
  exact List.mem_map_of_mem Prod.fst hmem

/-- C10.  The loader's conversion output is referentially closed: every
id referenced from any entry's `parentCombinations` or `children` is a
key of the returned map (ids absent from `bees.jsonc` having been
synthesized as placeholders), and every link `buildHierarchy` emits over
that map has both its source and target present in the node map. -/
theorem C10_referentially_closed (breedingPairs : List BreedingPair)
    (beesData : List (String × BeesJsonEntry)) :
    refsClosed (convertBreedingPairsToMutations breedingPairs beesData) ∧
    ∀ l ∈ (buildHierarchy (loaderToBeeData
        (convertBreedingPairsToMutations breedingPairs beesData))).links,
      hasKeyL (loaderToBeeData
        (convertBreedingPairsToMutations breedingPairs beesData)) l.1 = true ∧
      hasKeyL (loaderToBeeData
        (convertBreedingPairsToMutations breedingPairs beesData)) l.2 = true := by
  refine ⟨convert_closed breedingPairs beesData, ?_⟩
  intro l hl
  exact links_endpoints _ l hl

/-- Witness for `C10_referentially_closed`: a pair whose parents and
child are all absent from the (empty) bees map still yields a closed map
with links both of whose endpoints are present. -/
theorem C10_referentially_closed_witness :
    refsClosed (convertBreedingPairsToMutations
      [{ parents := ("m1:A", "m1:B"), children := ["m1:C"] }] []) ∧
    hasKeyL (convertBreedingPairsToMutations
      [{ parents := ("m1:A", "m1:B"), children := ["m1:C"] }] []) "m1:A" = true :=
  ⟨(C10_referentially_closed
      [{ parents := ("m1:A", "m1:B"), children := ["m1:C"] }] []).1,
   by decide⟩

/-! ### Claim C8 -/

theorem length_filter_le_of_imp {α : Type} (p q : α → Bool)
    (h : ∀ a, q a = true → p a = true) :
    ∀ l : List α, (l.filter q).length ≤ (l.filter p).length := by
  intro l
  induction l with
  | nil => exact Nat.le_refl 0
  | cons a t ih =>
    simp only [List.filter_cons]
    rcases hq : q a with _ | _
    · rcases hp : p a with _ | _ <;> simp <;> omega
    · rw [h a hq]
      simpa using ih

theorem unvisitedCount_lt (g : QGraph) (visited : List String) (n : String)
    (hn : n ∈ g.ids) (hnv : n ∉ visited) :
    unvisitedCount g (n :: visited) < unvisitedCount g visited := by
  unfold unvisitedCount
  have key : ∀ ids : List String, n ∈ ids →
      (ids.filter (fun i => decide (i ∉ n :: visited))).length <
      (ids.filter (fun i => decide (i ∉ visited))).length := by
    intro ids
    induction ids with
    | nil => intro h; cases h
    | cons a t ih =>
      intro hmem
      simp only [List.filter_cons]
      by_cases ha : a = n
      · subst ha
        have h1 : decide (a ∉ a :: visited) = false := by simp
        have h2 : decide (a ∉ visited) = true := by simpa using hnv
        rw [h1, h2]
        have hle := length_filter_le_of_imp
          (fun i => decide (i ∉ visited)) (fun i => decide (i ∉ a :: visited))
          (by intro x hx; simp at hx ⊢; exact hx.2) t
        simpa using Nat.lt_succ_of_le hle
      · have htail : n ∈ t := by
          rcases List.mem_cons.mp hmem with h | h
          · exact absurd h.symm ha
          · exact h
        have heq : decide (a ∉ n :: visited) = decide (a ∉ visited) := by
          by_cases hav : a ∈ visited <;> simp [hav, ha]
        rw [heq]
        rcases hd : decide (a ∉ visited) with _ | _
        · simpa using ih htail
        · simpa using Nat.succ_lt_succ (ih htail)
  exact key g.ids hn

theorem lookup_mem_ids (g : QGraph) (nodeId : String) (node : QNode)
    (h : g.lookup nodeId = some node) : nodeId ∈ g.ids := by
  unfold QGraph.lookup at h
  rcases hf : g.nodes.find? (fun kv => kv.1 == nodeId) with _ | kv
  · rw [hf] at h; cases h
  · have hp := List.find?_some hf
    have hm : kv ∈ g.nodes := List.mem_of_find?_eq_some hf
    have hk : kv.1 = nodeId := by simpa using hp
    rw [← hk]
    exact List.mem_map_of_mem Prod.fst hm

/-- Any fuel strictly exceeding the number of unvisited node ids computes
the same ancestor set: the source recursion (which has no fuel) is
well-defined and terminating. -/
theorem ancestorsAux_fuel_irrelevant (g : QGraph) :
    ∀ (f₁ f₂ : Nat) (visited : List String) (nodeId : String),
      unvisitedCount g visited < f₁ → unvisitedCount g visited < f₂ →
      ancestorsAux g f₁ visited nodeId = ancestorsAux g f₂ visited nodeId := by
  intro f₁
  induction f₁ with
  | zero => intro f₂ visited nodeId h1; omega
  | succ m ih =>
    intro f₂ visited nodeId h1 h2
    rcases f₂ with _ | m₂
    · omega
    · unfold ancestorsAux
      by_cases hv : nodeId ∈ visited
      · simp [hv]
      · simp only [hv, if_false]
        rcases hl : g.lookup nodeId with _ | node
        · rfl
        · have hdec := unvisitedCount_lt g visited nodeId
            (lookup_mem_ids g nodeId node hl) hv
          have harg : ∀ (p : String) (acc : Finset String),
              insert p acc ∪ ancestorsAux g m (nodeId :: visited) p =
              insert p acc ∪ ancestorsAux g m₂ (nodeId :: visited) p := by
            intro p acc
            rw [ih m₂ (nodeId :: visited) p (by omega) (by omega)]
          exact List.foldl_ext _ _ ∅ (fun acc p _ => harg p acc)

/-- Mirror of `ancestorsAux_fuel_irrelevant` for the descendant
traversal. -/
theorem descendantsAux_fuel_irrelevant (g : QGraph) :
    ∀ (f₁ f₂ : Nat) (visited : List String) (nodeId : String),
      unvisitedCount g visited < f₁ → unvisitedCount g visited < f₂ →
      descendantsAux g f₁ visited nodeId = descendantsAux g f₂ visited nodeId := by
  intro f₁
  induction f₁ with
  | zero => intro f₂ visited nodeId h1; omega
  | succ m ih =>
    intro f₂ visited nodeId h1 h2
    rcases f₂ with _ | m₂
    · omega
    · unfold descendantsAux
      by_cases hv : nodeId ∈ visited
      · simp [hv]
      · simp only [hv, if_false]
        rcases hl : g.lookup nodeId with _ | node
        · rfl
        · have hdec := unvisitedCount_lt g visited nodeId
            (lookup_mem_ids g nodeId node hl) hv
          have harg : ∀ (c : String) (acc : Finset String),
              insert c acc ∪ descendantsAux g m (nodeId :: visited) c =
              insert c acc ∪ descendantsAux g m₂ (nodeId :: visited) c := by
            intro c acc
            rw [ih m₂ (nodeId :: visited) c (by omega) (by omega)]
          exact List.foldl_ext _ _ ∅ (fun acc c _ => harg c acc)

/-- C8, counterexample.  On the two-node cycle `a ↔ b` the ancestor
closure of `a` is `{a, b}`: it contains the start id itself, so the
operations do not always return a set excluding the start id on cyclic
hierarchies. -/
theorem C8_counterexample :
    getAllAncestors qCycle "a" = {"a", "b"} ∧
    "a" ∈ getAllAncestors qCycle "a" ∧
    getAllDescendants qCycle "a" = {"a", "b"} := by
  refine ⟨by decide, by decide, by decide⟩

/-- C8, amended.  Both closure operations terminate (any fuel beyond the
number of unvisited ids computes the same set, so the source recursion is
well-defined), and on the acyclic diamond they return exactly the
transitively reachable ids excluding the start: `ancestors(D) = {A,B,C}`
and `descendants(A) = {B,C,D}`.  On a hierarchy with a cycle the returned
set may additionally contain the start id itself when the start lies on a
cycle. -/
theorem C8_closures (g : QGraph) (f₁ f₂ : Nat) (visited : List String)
    (nodeId : String)
    (h₁ : unvisitedCount g visited < f₁)
    (h₂ : unvisitedCount g visited < f₂) :
    ancestorsAux g f₁ visited nodeId = ancestorsAux g f₂ visited nodeId ∧
    descendantsAux g f₁ visited nodeId = descendantsAux g f₂ visited nodeId ∧
    getAllAncestors qDiamond "D" = {"A", "B", "C"} ∧
    getAllDescendants qDiamond "A" = {"B", "C", "D"} ∧
    "a" ∈ getAllAncestors qCycle "a" := by
  refine ⟨ancestorsAux_fuel_irrelevant g f₁ f₂ visited nodeId h₁ h₂,
    descendantsAux_fuel_irrelevant g f₁ f₂ visited nodeId h₁ h₂,
    by decide, by decide, by decide⟩

/-! ### Claim C4 -/

theorem lookupL_none_of_hasKeyL_false {α : Type} (m : List (String × α))
    (k : String) (h : hasKeyL m k = false) : lookupL m k = none := by
  induction m with
  | nil => rfl
  | cons kv t ih =>
    unfold hasKeyL at h
    simp only [List.any_cons, Bool.or_eq_false_iff] at h
    unfold lookupL
    rw [List.find?_cons, h.1]
    exact ih h.2

theorem lookupL_setKey_self {α : Type} (m : List (String × α))
    (k : String) (v : α) : lookupL (setKey m k v) k = some v := by
  unfold setKey
  by_cases hk : hasKeyL m k
  · rw [if_pos hk]
    unfold hasKeyL at hk
    induction m with
    | nil => cases hk
    | cons kv₀ t ih =>
      simp only [List.map_cons]
      unfold lookupL
      by_cases h0 : kv₀.1 == k
      · rw [if_pos (by simpa using h0)]
        rw [List.find?_cons_of_pos _ (by simp)]
        rfl
      · rw [if_neg (by simpa using h0)]
        rw [List.find?_cons_of_neg _ (by simpa using h0)]
        simp only [List.any_cons] at hk
        rcases Bool.or_eq_true_iff.mp hk with hbad | hrest
        · exact absurd hbad (by simpa using h0)
        · exact ih hrest
  · rw [if_neg hk]
    unfold lookupL
    rw [List.find?_append]
    have hnone : lookupL m k = none :=
      lookupL_none_of_hasKeyL_false m k (by simpa using hk)
    unfold lookupL at hnone
    rcases hfind : m.find? (fun kv => kv.1 == k) with _ | kv
    · rw [hfind]
      rw [Option.none_or]
      rw [List.find?_cons_of_pos _ (by simp)]
      rfl
    · rw [hfind] at hnone
      cases hnone

theorem lookupL_setKey_other {α : Type} (m : List (String × α))
    (k k' : String) (v : α) (h : k' ≠ k) :
    lookupL (setKey m k v) k' = lookupL m k' := by
  unfold setKey
  by_cases hk : hasKeyL m k
  · rw [if_pos hk]
    clear hk
    induction m with
    | nil => rfl
    | cons kv₀ t ih =>
      simp only [List.map_cons]
      unfold lookupL at ih ⊢
      by_cases h0 : kv₀.1 == k
      · rw [if_pos (by simpa using h0)]
        rw [List.find?_cons_of_neg _ (by simpa using fun he => h he.symm)]
        have h0k : kv₀.1 = k := by simpa using h0
        rw [List.find?_cons_of_neg _ (by
          rw [h0k]
          simpa using fun he => h he.symm)]
        exact ih
      · rw [if_neg (by simpa using h0)]
        by_cases h0' : kv₀.1 == k'
        · rw [List.find?_cons_of_pos _ (by simpa using h0'),
            List.find?_cons_of_pos _ (by simpa using h0')]
        · rw [List.find?_cons_of_neg _ (by simpa using h0'),
            List.find?_cons_of_neg _ (by simpa using h0')]
          exact ih
  · rw [if_neg hk]
    unfold lookupL
    rw [List.find?_append]
    rcases hfind : m.find? (fun kv => kv.1 == k') with _ | kv
    · rw [hfind, Option.none_or]
      rw [List.find?_cons_of_neg _ (by simpa using fun he => h he.symm)]
      rfl
    · rw [hfind]
      rfl

theorem objAssign_cons {α : Type} (target : List (String × α))
    (kv : String × α) (t : List (String × α)) :
    objAssign target (kv :: t) = objAssign (setKey target kv.1 kv.2) t := rfl

theorem objAssign_lookup_of_absent {α : Type} :
    ∀ (src target : List (String × α)) (k : String),
      hasKeyL src k = false →
      lookupL (objAssign target src) k = lookupL target k := by
  intro src
  induction src with
  | nil => intro target k _; rfl
  | cons kv t ih =>
    intro target k h
    unfold hasKeyL at h
    simp only [List.any_cons, Bool.or_eq_false_iff] at h
    rw [objAssign_cons]
    rw [ih (setKey target kv.1 kv.2) k h.2]
    exact lookupL_setKey_other target kv.1 k kv.2 (Ne.symm (by simpa using h.1))

theorem objAssign_lookup_of_present {α : Type} :
    ∀ (src target : List (String × α)) (k : String) (v : α),
      (src.map Prod.fst).Nodup →
      lookupL src k = some v →
      lookupL (objAssign target src) k = some v := by
  intro src
  induction src with
  | nil => intro target k v _ hl; cases hl
  | cons kv t ih =>
    intro target k v hnd hl
    simp only [List.map_cons, List.nodup_cons] at hnd
    rw [objAssign_cons]
    unfold lookupL at hl
    by_cases h0 : (kv.1 == k) = true
    · rw [@List.find?_cons_of_pos _ (fun kv => kv.1 == k) kv t h0] at hl
      have hv : kv.2 = v := by simpa using hl
      have hk : kv.1 = k := by simpa using h0
      have habs : hasKeyL t k = false := by
        unfold hasKeyL
        rw [List.any_eq_false]
        intro x hx
        intro he
        have hx1 : x.1 = k := by simpa using he
        have hkmem : k ∈ t.map Prod.fst := hx1 ▸ List.mem_map_of_mem Prod.fst hx
        apply hnd.1
        rw [hk]
        exact hkmem
      rw [objAssign_lookup_of_absent t (setKey target kv.1 kv.2) k habs]
      rw [hk, hv]
      exact lookupL_setKey_self target k v
    · rw [@List.find?_cons_of_neg _ (fun kv => kv.1 == k) kv t h0] at hl
      exact ih (setKey target kv.1 kv.2) k v hnd.2 hl

/-- C4, counterexample.  Merging the two collision datasets silently
resolves the id collision by last-write-wins: the merged record for
`forestry.speciesCommon` is the second mod's record, the first mod's
record is gone.  (The merge step of `buildOutput` has no diagnostics
channel at all, so no `IdCollision` diagnostic exists to be emitted.) -/
theorem C4_counterexample :
    lookupL (mergeBees collisionDatasets) "forestry.speciesCommon" =
      some beeCommonB ∧
    beeCommonB ≠ beeCommonA := by
  exact ⟨by decide, by decide⟩

/-- C4, amended.  `Object.assign` merging is last-write-wins: a key
present in the later dataset ends up bound to the later dataset's value,
and a key absent from it keeps the earlier binding; no diagnostic is
produced (the merge returns only the merged map). -/
theorem C4_last_write_wins {α : Type} (target src : List (String × α))
    (k : String) :
    ((src.map Prod.fst).Nodup → ∀ v, lookupL src k = some v →
      lookupL (objAssign target src) k = some v) ∧
    (hasKeyL src k = false →
      lookupL (objAssign target src) k = lookupL target k) := by
  constructor
  · intro hnd v hv
    exact objAssign_lookup_of_present src target k v hnd hv
  · intro h
    exact objAssign_lookup_of_absent src target k h

/-- Witness for `C4_last_write_wins` on the collision datasets. -/
theorem C4_last_write_wins_witness :
    lookupL (objAssign [("forestry.speciesCommon", beeCommonA)]
      [("forestry.speciesCommon", beeCommonB)]) "forestry.speciesCommon" =
      some beeCommonB :=
  (C4_last_write_wins [("forestry.speciesCommon", beeCommonA)]
      [("forestry.speciesCommon", beeCommonB)] "forestry.speciesCommon").1
    (by decide) beeCommonB (by decide)

/-! ### Claim C5 -/

/-- C5, counterexample.  A record whose `parent1` reference
`unknownmod.ghost` is unresolvable and which carries no source location is
dropped and a diagnostic is emitted, but that diagnostic does not contain
the unresolved reference anywhere — without a source location the warning
names only the offspring reference. -/
theorem C5_counterexample :
    (buildBreedingPairsJsonc beesAgg [mutGhost]).1 = [] ∧
    (buildBreedingPairsJsonc beesAgg [mutGhost]).2 =
      [{ offspringRef := some "forestry.speciesCommon" }] ∧
    diagMentions { offspringRef := some "forestry.speciesCommon" }
      "unknownmod.ghost" = false ∧
    findBee beesAgg mutGhost.parent1 = none := by
  refine ⟨by decide, by decide, by decide, by decide⟩

/-- C5, amended.  A record with any unresolvable reference contributes to
no mutation group (its processing step leaves the groups untouched) and
appends exactly one skip diagnostic; when the record has a source
location the diagnostic lists every unresolved role with its raw
reference together with the location, and when it has none the
diagnostic names only the offspring reference.  Aggregation continues
with the remaining records (the step is a fold over all records). -/
theorem C5_skip_behavior (bees : List (String × OutBee)) (st : AggState)
    (m : Mutation)
    (hfail : findBee bees m.parent1 = none ∨ findBee bees m.parent2 = none ∨
      findBee bees m.offspring = none) :
    (processMutation bees st m).groups = st.groups ∧
    (processMutation bees st m).skipped = st.skipped ++
      [mkSkipDiag m (findBee bees m.parent1).isNone
        (findBee bees m.parent2).isNone (findBee bees m.offspring).isNone] ∧
    (∀ loc, m.source = some loc →
      (mkSkipDiag m (findBee bees m.parent1).isNone
          (findBee bees m.parent2).isNone
          (findBee bees m.offspring).isNone).location = some loc ∧
      (findBee bees m.parent1 = none →
        ("parent1", m.parent1) ∈ (mkSkipDiag m (findBee bees m.parent1).isNone
          (findBee bees m.parent2).isNone
          (findBee bees m.offspring).isNone).missing) ∧
      (findBee bees m.parent2 = none →
        ("parent2", m.parent2) ∈ (mkSkipDiag m (findBee bees m.parent1).isNone
          (findBee bees m.parent2).isNone
          (findBee bees m.offspring).isNone).missing) ∧
      (findBee bees m.offspring = none →
        ("offspring", m.offspring) ∈ (mkSkipDiag m (findBee bees m.parent1).isNone
          (findBee bees m.parent2).isNone
          (findBee bees m.offspring).isNone).missing)) ∧
    (m.source = none →
      mkSkipDiag m (findBee bees m.parent1).isNone
        (findBee bees m.parent2).isNone (findBee bees m.offspring).isNone =
        { offspringRef := m.offspring }) := by
  have hdiag : ∀ loc, m.source = some loc →
      (mkSkipDiag m (findBee bees m.parent1).isNone
          (findBee bees m.parent2).isNone
          (findBee bees m.offspring).isNone).location = some loc ∧
      (findBee bees m.parent1 = none →
        ("parent1", m.parent1) ∈ (mkSkipDiag m (findBee bees m.parent1).isNone
          (findBee bees m.parent2).isNone
          (findBee bees m.offspring).isNone).missing) ∧
      (findBee bees m.parent2 = none →
        ("parent2", m.parent2) ∈ (mkSkipDiag m (findBee bees m.parent1).isNone
          (findBee bees m.parent2).isNone
          (findBee bees m.offspring).isNone).missing) ∧
      (findBee bees m.offspring = none →
        ("offspring", m.offspring) ∈ (mkSkipDiag m (findBee bees m.parent1).isNone
          (findBee bees m.parent2).isNone
          (findBee bees m.offspring).isNone).missing) := by
    intro loc hloc
    unfold mkSkipDiag
    rw [hloc]
    refine ⟨rfl, ?_, ?_, ?_⟩
    · intro h1
      rw [h1]
      simp
    · intro h2
      rw [h2]
      simp
    · intro h3
      rw [h3]
      simp
  have hnosrc : m.source = none →
      mkSkipDiag m (findBee bees m.parent1).isNone
        (findBee bees m.parent2).isNone (findBee bees m.offspring).isNone =
        { offspringRef := m.offspring } := by
    intro hs
    unfold mkSkipDiag
    rw [hs]
  rcases hf1 : findBee bees m.parent1 with _ | p1b <;>
    rcases hf2 : findBee bees m.parent2 with _ | p2b <;>
      rcases hf3 : findBee bees m.offspring with _ | ob <;>
        first
        | (unfold processMutation
           rw [hf1, hf2, hf3] at hdiag hnosrc ⊢
           exact ⟨rfl, rfl, hdiag, hnosrc⟩)
        | (exact absurd hfail (by simp [hf1, hf2, hf3]))

/-- Witness for `C5_skip_behavior` on a ghost record with a source
location. -/
theorem C5_skip_behavior_witness :
    (processMutation beesAgg {}
      { mutGhost with source := some ⟨"gendustry/mutations.cfg", 42⟩ }).groups =
      AggState.groups {} ∧
    (processMutation beesAgg {}
      { mutGhost with source := some ⟨"gendustry/mutations.cfg", 42⟩ }).skipped =
      AggState.skipped {} ++
      [mkSkipDiag { mutGhost with source := some ⟨"gendustry/mutations.cfg", 42⟩ }
        (findBee beesAgg mutGhost.parent1).isNone
        (findBee beesAgg mutGhost.parent2).isNone
        (findBee beesAgg mutGhost.offspring).isNone] := by
  have h := C5_skip_behavior beesAgg {}
    { mutGhost with source := some ⟨"gendustry/mutations.cfg", 42⟩ }
    (Or.inl (by decide))
  exact ⟨h.1, h.2.1⟩

/-! ### Claim C6 -/

theorem pushChild_of_absent (groups : List (List String × MutationGroup))
    (key : List String) (e : ChildEntry)
    (h : groups.any (fun kv => kv.1 == key) = false) :
    pushChild groups key e = groups := by
  unfold pushChild
  induction groups with
  | nil => rfl
  | cons kv t ih =>
    simp only [List.any_cons, Bool.or_eq_false_iff] at h
    simp only [List.map_cons]
    rw [if_neg (by simp [h.1]), ih h.2]

theorem totalChildren_append (a b : List (List String × MutationGroup)) :
    totalChildren (a ++ b) = totalChildren a + totalChildren b := by
  unfold totalChildren
  rw [List.map_append, List.sum_append]

theorem pushChild_cons (kv : List String × MutationGroup)
    (t : List (List String × MutationGroup)) (key : List String)
    (e : ChildEntry) :
    pushChild (kv :: t) key e =
      (if (kv.1 == key) = true then
        (kv.1, { kv.2 with children := kv.2.children ++ [e] })
      else kv) :: pushChild t key e := by
  unfold pushChild
  rw [List.map_cons]

theorem totalChildren_cons (kv : List String × MutationGroup)
    (t : List (List String × MutationGroup)) :
    totalChildren (kv :: t) = kv.2.children.length + totalChildren t := by
  unfold totalChildren
  rw [List.map_cons, List.sum_cons]

theorem totalChildren_pushChild (groups : List (List String × MutationGroup))
    (key : List String) (e : ChildEntry)
    (hnd : (groups.map Prod.fst).Nodup)
    (h : groups.any (fun kv => kv.1 == key) = true) :
    totalChildren (pushChild groups key e) = totalChildren groups + 1 := by
  induction groups with
  | nil => cases h
  | cons kv t ih =>
    simp only [List.map_cons, List.nodup_cons] at hnd
    simp only [List.any_cons] at h
    rw [pushChild_cons]
    by_cases h0 : (kv.1 == key) = true
    · rw [if_pos h0]
      have habs : t.any (fun kv => kv.1 == key) = false := by
        rw [List.any_eq_false]
        intro x hx he
        have hx1 : x.1 = key := by simpa using he
        have hk : kv.1 = key := by simpa using h0
        exact hnd.1 (by
          rw [hk, ← hx1]
          exact List.mem_map_of_mem Prod.fst hx)
      rw [pushChild_of_absent t key e habs]
      rw [totalChildren_cons, totalChildren_cons]
      simp only [List.length_append, List.length_cons, List.length_nil]
      omega
    · rw [if_neg h0]
      rcases Bool.or_eq_true_iff.mp h with hbad | hrest
      · exact absurd hbad h0
      · rw [totalChildren_cons, totalChildren_cons, ih hnd.2 hrest]
        omega

theorem totalChildren_addToGroups (groups : List (List String × MutationGroup))
    (key : List String) (e : ChildEntry)
    (hnd : (groups.map Prod.fst).Nodup) :
    totalChildren (addToGroups groups key e) = totalChildren groups + 1 := by
  unfold addToGroups
  by_cases h : groups.any (fun kv => kv.1 == key) = true
  · rw [if_pos h]
    exact totalChildren_pushChild groups key e hnd h
  · rw [if_neg h]
    have h' : groups.any (fun kv => kv.1 == key) = false := by
      rcases hb : groups.any (fun kv => kv.1 == key) with _ | _
      · rfl
      · exact absurd hb h
    have hsplit : pushChild (groups ++ [(key, { parents := key, children := [] })]) key e =
        pushChild groups key e ++ pushChild [(key, { parents := key, children := [] })] key e := by
      unfold pushChild
      rw [List.map_append]
    rw [hsplit, pushChild_of_absent groups key e h', totalChildren_append]
    have hlast : pushChild [(key, { parents := key, children := [] })] key e =
        [(key, ({ parents := key, children := [e] } : MutationGroup))] := by
      unfold pushChild
      simp
    rw [hlast]
    unfold totalChildren
    simp

/-- C6, counterexample.  Two identical raw records (same parents, same
offspring, no condition fields) produce a group with TWO identical child
entries: nothing collapses them into one. -/
theorem C6_counterexample :
    (buildBreedingPairsJsonc beesAgg [mutCommon, mutCommon]).1 =
      [{ parents := ["Forestry:Forest", "Forestry:Meadows"],
         children := [{ species := "Forestry:Common", probability := ⟨15, 100⟩ },
                      { species := "Forestry:Common", probability := ⟨15, 100⟩ }] }] ∧
    ((buildBreedingPairsJsonc beesAgg [mutCommon, mutCommon]).1.map
      (fun gr => gr.children.length)) = [2] := by
  exact ⟨by decide, by decide⟩

/-- C6, amended.  No deduplication happens within a group: every
successfully resolved record appends exactly one child entry to its
group (the total child count grows by exactly one and no diagnostic is
added), so records with identical parents, offspring and no conditions
remain separate identical entries, and records differing only in their
condition sets remain separate entries as well. -/
theorem C6_every_record_appends (bees : List (String × OutBee))
    (st : AggState) (m : Mutation) (p1b p2b ob : OutBee)
    (hnd : (st.groups.map Prod.fst).Nodup)
    (h1 : findBee bees m.parent1 = some p1b)
    (h2 : findBee bees m.parent2 = some p2b)
    (h3 : findBee bees m.offspring = some ob) :
    totalChildren (processMutation bees st m).groups =
      totalChildren st.groups + 1 ∧
    (processMutation bees st m).skipped = st.skipped := by
  unfold processMutation
  rw [h1, h2, h3]
  constructor
  · exact totalChildren_addToGroups st.groups _ _ hnd
  · rfl

/-- Witness for `C6_every_record_appends`: the duplicated common-bee
record appends one entry starting from the empty aggregation state. -/
theorem C6_every_record_appends_witness :
    totalChildren (processMutation beesAgg {} mutCommon).groups =
      totalChildren (AggState.groups {}) + 1 ∧
    (processMutation beesAgg {} mutCommon).skipped = AggState.skipped {} :=
  C6_every_record_appends beesAgg {} mutCommon
    { mod := "Forestry", name := "Forest" }
    { mod := "Forestry", name := "Meadows" }
    { mod := "Forestry", name := "Common" }
    (by decide) (by decide) (by decide) (by decide)

/-! ### Claim C7 -/

/-- C7, counterexample.  For the non-MagicBees reference
`ExtraBees:Ro_cky` the claimed separator-stripped retry would resolve to
`extrabees.speciesRocky` (as `claimedResolve`, built from the
specification's wording, does), but `findBee` only performs the stripped
retry for MagicBees references and tries just two space-converted
patterns, so it returns not-found. -/
theorem C7_counterexample :
    findBee beesRocky (some "ExtraBees:Ro_cky") = none ∧
    claimedResolve beesRocky "ExtraBees:Ro_cky" =
      some { mod := "ExtraBees", name := "Rocky" } := by
  exact ⟨by decide, by decide⟩

/-- C7, amended.  The resolver is priority-ordered: an exact id match
always wins; a `Mod:Name` reference is tried against the three prefix
patterns in order, so `ExtraBees:Rocky` resolves to
`extrabees.speciesRocky` via the case-preserving `species` pattern; the
separators-stripped retry exists but only for MagicBees references
(`MagicBees:TE_Endearing` resolves to `magicbees.speciesTeendearing`),
and the space-converted retry uses only the first two patterns, so a
non-MagicBees reference that only the stripped pattern would match
remains unresolved. -/
theorem C7_resolver_priority (bees : List (String × OutBee)) (id : String)
    (b : OutBee) (hne : jsIsEmpty id = false)
    (hex : lookupL bees id = some b) :
    findBee bees (some id) = some b ∧
    findBee beesRocky (some "ExtraBees:Rocky") =
      some { mod := "ExtraBees", name := "Rocky" } ∧
    findBee beesMagic (some "MagicBees:TE_Endearing") =
      some { mod := "MagicBees", name := "TE Endearing" } ∧
    findBee beesRocky (some "ExtraBees:Ro_cky") = none := by
  refine ⟨?_, by decide, by decide, by decide⟩
  simp [findBee, hne, hex]

/-- Witness for `C7_resolver_priority`: exact lookup of a known id. -/
theorem C7_resolver_priority_witness :
    findBee beesAgg (some "forestry.speciesForest") =
      some { mod := "Forestry", name := "Forest" } :=
  (C7_resolver_priority beesAgg "forestry.speciesForest"
    { mod := "Forestry", name := "Forest" } (by decide) (by decide)).1

/-- Witness for `C8_closures` at concrete fuels on the diamond graph. -/
theorem C8_closures_witness :
    ancestorsAux qDiamond 5 [] "D" = ancestorsAux qDiamond 9 [] "D" ∧
    descendantsAux qDiamond 5 [] "D" = descendantsAux qDiamond 9 [] "D" ∧
    getAllAncestors qDiamond "D" = {"A", "B", "C"} ∧
    getAllDescendants qDiamond "A" = {"B", "C", "D"} ∧
    "a" ∈ getAllAncestors qCycle "a" :=
  C8_closures qDiamond 5 9 [] "D" (by decide) (by decide)

end BeeBreeding
